import Mathlib

/-!
Verification of the Markdown notebook cell parser/serializer
(`src/markdownParser.ts`).

Strings are modelled as lists of characters (`Str`).  JavaScript's
`string.split(/\r?\n/g)`, the fence regular expressions, the `Map`
lookups and the whitespace bookkeeping are embedded directly from the
source.  The external YAML library (`js-yaml`) is not part of the
repository; `parseMarkdown` is therefore parameterised by an oracle
`yamlOk : Str → Bool` standing for "`yaml.load` returns without
throwing".  The parsed YAML value stored on a front-matter cell is
advisory (used only by the host) and is not modelled.

`parseMarkdown` returns `Except Unit _`: the `.error ()` value models
the JavaScript `TypeError` that the source raises when, after the
leading run of blank lines, the scan index already equals
`lines.length` and `parseCodeBlockStart(lines[i])` dereferences
`undefined`.
-/

deriving instance DecidableEq for Except

namespace MarkdownNotebook

/-- Strings modelled as lists of characters. -/
abbrev Str := List Char

/-- Coercion from Lean string literals to the model's string type. -/
def str (s : String) : Str := s.data

/-- The characters matched by JavaScript's `\s` class (the ASCII ones,
plus NBSP and the BOM; none of the exotic Unicode spaces occur in the
development). -/
def jsWhitespace (c : Char) : Bool :=
  c = ' ' || c = '\t' || c = '\n' || c = '\r' || c = '\x0B' ||
  c = '\x0C' || c = ' ' || c = '﻿'

/-- JavaScript `content.split(/\r?\n/g)`: split at every `\n`,
swallowing one `\r` immediately before it. -/
def splitLines : Str → List Str
  | [] => [[]]
  | '\r' :: '\n' :: rest => [] :: splitLines rest
  | '\n' :: rest => [] :: splitLines rest
  | c :: rest => List.modifyHead (fun l => c :: l) (splitLines rest)

/-- JavaScript `lines.join('\n')`. -/
def joinNL : List Str → Str
  | [] => []
  | [l] => l
  | l :: rest => l ++ '\n' :: joinNL rest

/-- The triple-backtick fence marker (`CODE_BLOCK_MARKER`). -/
def fenceMarker : Str := str "```"

/-- `LANG_IDS` (markdownParser.ts lines 20–29), as the list of pairs
passed to the `Map` constructor.  Its keys are pairwise distinct. -/
def LANG_IDS : List (Str × Str) :=
  [(str "bat", str "batch"), (str "c++", str "cpp"),
   (str "js", str "javascript"), (str "ts", str "typescript"),
   (str "cs", str "csharp"), (str "py", str "python"),
   (str "py2", str "python"), (str "py3", str "python")]

/-- `Map.get` for a `Map` built from a pair list: `Map`'s constructor
calls `set` for each pair in order, so a later pair with an equal key
overwrites an earlier one — `get` returns the LAST matching pair. -/
def jsMapGet (pairs : List (Str × Str)) (k : Str) : Option Str :=
  (pairs.reverse.find? (fun p => p.1 == k)).map (fun p => p.2)

/-- The pair list from which `LANG_ABBREVS` is constructed
(markdownParser.ts lines 30–32): `LANG_IDS` with each pair swapped.
Three pairs share the key `python`; `py3` wins in the `Map`. -/
def LANG_ABBREVS : List (Str × Str) :=
  LANG_IDS.map (fun p => (p.2, p.1))

/-- `LANG_IDS.get(langId) || langId` (markdownParser.ts line 99):
decode a fence tag to a language identifier.  No value of `LANG_IDS`
is the empty string, so JS `||` coincides with "default on miss". -/
def decodeTag (tag : Str) : Str := (jsMapGet LANG_IDS tag).getD tag

/-- `LANG_ABBREVS.get(languageId) ?? languageId`
(markdownParser.ts line 206): encode a language id to a fence tag. -/
def encodeTag (languageId : Str) : Str :=
  (jsMapGet LANG_ABBREVS languageId).getD languageId

/-- Result of `parseCodeBlockStart`: the captured indentation group
(which JS leaves `undefined` when the group did not participate) and
the language tag. -/
structure ICodeBlockStart where
  indentation : Option Str
  langId : Str
deriving DecidableEq

/-- One attempt of the regex `/(    |\t)?```(\S*)/` at a fixed
position: the optional group tries four spaces, then a tab, then
nothing, and the fence must follow immediately; `(\S*)` then captures
greedily. -/
def fenceAt (s : Str) : Option ICodeBlockStart :=
  if (str "    " ++ fenceMarker).isPrefixOf s then
    some ⟨some (str "    "), (s.drop 7).takeWhile (fun c => !jsWhitespace c)⟩
  else if ('\t' :: fenceMarker).isPrefixOf s then
    some ⟨some ['\t'], (s.drop 4).takeWhile (fun c => !jsWhitespace c)⟩
  else if fenceMarker.isPrefixOf s then
    some ⟨none, (s.drop 3).takeWhile (fun c => !jsWhitespace c)⟩
  else none

/-- `parseCodeBlockStart` (markdownParser.ts lines 43–49):
`line.match(/(    |\t)?```(\S*)/)`.  The regex is not anchored, so the
engine tries successive start positions from the left. -/
def parseCodeBlockStart : Str → Option ICodeBlockStart
  | [] => none
  | c :: rest =>
    match fenceAt (c :: rest) with
    | some r => some r
    | none => parseCodeBlockStart rest

/-- `isCodeBlockStart` (markdownParser.ts lines 51–53). -/
def isCodeBlockStart (line : Str) : Bool := (parseCodeBlockStart line).isSome

/-- `isCodeBlockEndLine` (markdownParser.ts lines 55–57):
`line.match(/^\s*```/)`. -/
def isCodeBlockEndLine (line : Str) : Bool :=
  fenceMarker.isPrefixOf (line.dropWhile jsWhitespace)

/-- `vscode.NotebookCellKind`. -/
inductive NotebookCellKind where
  | Markdown
  | Code
deriving DecidableEq

/-- `RawNotebookCell` (markdownParser.ts lines 9–18).  The advisory
`yaml` field (the value returned by `yaml.load`) is not modelled; the
optional `isEmbeddedYaml` flag is modelled as a `Bool` (JS reads it
only for truthiness). -/
structure RawNotebookCell where
  indentation : Option Str
  leadingWhitespace : Str
  trailingWhitespace : Str
  language : Str
  content : Str
  kind : NotebookCellKind
  isEmbeddedYaml : Bool
deriving DecidableEq

/-- `line.replace(new RegExp('^' + codeBlockStart.indentation), '')`
(markdownParser.ts line 114).  When the fence had no indentation the
captured group is `undefined` and JS stringifies it, so the regex is
`/^undefined/` and a literal `undefined` prefix is stripped. -/
def stripIndentation (ind : Option Str) (line : Str) : Str :=
  match ind with
  | some s => if s.isPrefixOf line then line.drop s.length else line
  | none =>
    if (str "undefined").isPrefixOf line then line.drop 9 else line

/-- `parseWhitespaceLines` (markdownParser.ts lines 81–96), phrased on
the remaining lines: returns the whitespace string and the lines after
the consumed blank run.  `'\n'.repeat(end - start + (isFirst || isLast
? 0 : 1))` where `isLast` means no non-blank line remains. -/
def parseWhitespaceLines (isFirst : Bool) (rest : List Str) :
    Str × List Str :=
  let c := (rest.takeWhile (fun l => l.isEmpty)).length
  let isLast := c = rest.length
  let n := c + (if isFirst || isLast then 0 else 1)
  (List.replicate n '\n', rest.drop c)

/-- `parseCodeBlock` (markdownParser.ts lines 98–125), phrased on the
lines after the opening fence: scan for the first closing-fence line;
at end-of-document the `lines.slice(startSourceIdx, i - 1)` with `i =
lines.length` drops the final line. -/
def parseCodeBlock (leadingWhitespace : Str) (codeBlockStart : ICodeBlockStart)
    (tail : List Str) : RawNotebookCell × List Str :=
  let pre := tail.takeWhile (fun l => !isCodeBlockEndLine l)
  let body := if pre.length = tail.length then pre.dropLast else pre
  let afterBlock :=
    if pre.length = tail.length then [] else tail.drop (pre.length + 1)
  let content := joinNL (body.map (stripIndentation codeBlockStart.indentation))
  let ws := parseWhitespaceLines false afterBlock
  ({ indentation := codeBlockStart.indentation,
     leadingWhitespace := leadingWhitespace,
     trailingWhitespace := ws.1,
     language := decodeTag codeBlockStart.langId,
     content := content,
     kind := NotebookCellKind.Code,
     isEmbeddedYaml := false }, ws.2)

/-- `parseMarkdownParagraph` (markdownParser.ts lines 127–151):
consume lines until end-of-document, a blank line or a code-block
start. -/
def parseMarkdownParagraph (leadingWhitespace : Str) (rest : List Str) :
    RawNotebookCell × List Str :=
  let body := rest.takeWhile (fun l => !l.isEmpty && !isCodeBlockStart l)
  let ws := parseWhitespaceLines false (rest.drop body.length)
  ({ indentation := none,
     leadingWhitespace := leadingWhitespace,
     trailingWhitespace := ws.1,
     language := str "markdown",
     content := joinNL body,
     kind := NotebookCellKind.Markdown,
     isEmbeddedYaml := false }, ws.2)

/-- `parseEmbeddedYAML` (markdownParser.ts lines 153–187), phrased on
the lines after the opening `---`: `none` models the two rewind paths
(no closing `---` before end-of-document, or `yaml.load` throwing). -/
def parseEmbeddedYAML (yamlOk : Str → Bool) (leadingWhitespace : Str)
    (tail : List Str) : Option (RawNotebookCell × List Str) :=
  let pre := tail.takeWhile (fun l => !(l == str "---"))
  if pre.length = tail.length then none
  else
    let content := joinNL pre
    if yamlOk content then
      let ws := parseWhitespaceLines false (tail.drop (pre.length + 1))
      some ({ indentation := none,
              leadingWhitespace := leadingWhitespace,
              trailingWhitespace := ws.1,
              language := str "yaml",
              content := content,
              kind := NotebookCellKind.Code,
              isEmbeddedYaml := true }, ws.2)
    else none

/-- The `for` loop of `parseMarkdown` (markdownParser.ts lines 65–79)
for iterations after the first (there `i ≠ 0` and `cells.length ≠ 0`,
so no leading whitespace is consumed and no front matter is tried),
with an explicit fuel argument; every iteration consumes at least one
line, so any fuel of at least `rest.length` computes the loop. -/
def parseLoopF : Nat → List Str → List RawNotebookCell
  | 0, _ => []
  | _, [] => []
  | fuel + 1, line :: tail =>
    match parseCodeBlockStart line with
    | some cbs =>
      let r := parseCodeBlock [] cbs tail
      r.1 :: parseLoopF fuel r.2
    | none =>
      let r := parseMarkdownParagraph [] (line :: tail)
      r.1 :: parseLoopF fuel r.2

/-- The `for` loop of `parseMarkdown` from its second iteration on. -/
def parseLoop (rest : List Str) : List RawNotebookCell :=
  parseLoopF rest.length rest

/-- The dispatch of one loop iteration of `parseMarkdown`
(markdownParser.ts lines 73–78) followed by the remaining
iterations. -/
def parseBlockAnd (leadingWhitespace line : Str) (tail : List Str) :
    List RawNotebookCell :=
  match parseCodeBlockStart line with
  | some cbs =>
    let r := parseCodeBlock leadingWhitespace cbs tail
    r.1 :: parseLoop r.2
  | none =>
    let r := parseMarkdownParagraph leadingWhitespace (line :: tail)
    r.1 :: parseLoop r.2

/-- `parseMarkdown` (markdownParser.ts lines 59–190).  The first loop
iteration consumes the leading blank run, tries front matter when the
line then reached is exactly `---`, and otherwise dispatches on a
code-block start.  When the document consists solely of blank lines
the consumed run leaves `i = lines.length` and the source dereferences
`undefined` — modelled by `.error ()`. -/
def parseMarkdown (yamlOk : Str → Bool) (content : Str) :
    Except Unit (List RawNotebookCell) :=
  let lines := splitLines content
  let ws := parseWhitespaceLines true lines
  match ws.2 with
  | [] => Except.error ()
  | line :: tail =>
    if line == str "---" then
      match parseEmbeddedYAML yamlOk ws.1 tail with
      | some (cell, rest) => Except.ok (cell :: parseLoop rest)
      | none => Except.ok (parseBlockAnd ws.1 line tail)
    else Except.ok (parseBlockAnd ws.1 line tail)

/-- The `custom` metadata object that the host stores on a notebook
cell (extension.ts, `rawToNotebookCellData`); each field may be
absent. -/
structure CustomMetadata where
  leadingWhitespace : Option Str
  trailingWhitespace : Option Str
  indentation : Option Str
  isEmbeddedYaml : Bool
deriving DecidableEq

/-- The view of `vscode.NotebookCell` consumed by
`writeCellsToMarkdown`: its kind, `document.languageId`,
`document.getText()` and `metadata.custom` (absent on freshly inserted
cells). -/
structure NotebookCell where
  kind : NotebookCellKind
  languageId : Str
  text : Str
  custom : Option CustomMetadata
deriving DecidableEq

/-- `cell.metadata.custom?.leadingWhitespace`. -/
def customLeading (c : NotebookCell) : Option Str :=
  c.custom.bind (fun m => m.leadingWhitespace)

/-- `cell.metadata.custom?.trailingWhitespace`. -/
def customTrailing (c : NotebookCell) : Option Str :=
  c.custom.bind (fun m => m.trailingWhitespace)

/-- `cell.metadata.custom?.indentation`. -/
def customIndentation (c : NotebookCell) : Option Str :=
  c.custom.bind (fun m => m.indentation)

/-- Truthiness of `cell.metadata.custom?.isEmbeddedYaml`. -/
def customIsEmbeddedYaml (c : NotebookCell) : Bool :=
  (c.custom.map (fun m => m.isEmbeddedYaml)).getD false

/-- `getBetweenCellsWhitespace` (markdownParser.ts lines 221–243),
phrased on the cell at `idx` and the optional cell at `idx + 1`. -/
def getBetweenCellsWhitespace (thisCell : NotebookCell)
    (nextCell : Option NotebookCell) : Str :=
  match nextCell with
  | none => (customTrailing thisCell).getD (str "\n")
  | some n =>
    match customTrailing thisCell, customLeading n with
    | some t, some l => t ++ l
    | t, l =>
      let combined := t.getD [] ++ l.getD []
      if combined.isEmpty || combined == str "\n" then str "\n\n"
      else combined

/-- The per-cell emission of `writeCellsToMarkdown`
(markdownParser.ts lines 200–214): prose text verbatim, front matter
between `---` delimiters, code re-fenced with the encoded language tag
and the captured indentation re-applied to every content line. -/
def writeCell (cell : NotebookCell) : Str :=
  if cell.kind ≠ NotebookCellKind.Code then cell.text
  else if customIsEmbeddedYaml cell then
    str "---\n" ++ cell.text ++ str "\n---"
  else
    let indentation := (customIndentation cell).getD []
    indentation ++ fenceMarker ++ encodeTag cell.languageId ++ [ '\n' ] ++
      joinNL ((splitLines cell.text).map (fun l => indentation ++ l)) ++
      [ '\n' ] ++ indentation ++ fenceMarker

/-- The loop of `writeCellsToMarkdown` from the current cell on. -/
def writeCellsLoop : NotebookCell → List NotebookCell → Str
  | c, [] => writeCell c ++ getBetweenCellsWhitespace c none
  | c, n :: rest =>
    writeCell c ++ getBetweenCellsWhitespace c (some n) ++ writeCellsLoop n rest

/-- `writeCellsToMarkdown` (markdownParser.ts lines 192–219). -/
def writeCellsToMarkdown (cells : List NotebookCell) : Str :=
  match cells with
  | [] => []
  | c :: rest => (customLeading c).getD [] ++ writeCellsLoop c rest

/-- `rawToNotebookCellData` (extension.ts): the host carries the four
whitespace/indentation/front-matter fields of a parsed cell into the
notebook cell's `custom` metadata, verbatim. -/
def rawToNotebookCellData (d : RawNotebookCell) : NotebookCell :=
  { kind := d.kind,
    languageId := d.language,
    text := d.content,
    custom := some
      { leadingWhitespace := some d.leadingWhitespace,
        trailingWhitespace := some d.trailingWhitespace,
        indentation := d.indentation,
        isEmbeddedYaml := d.isEmbeddedYaml } }

/-- A line free of line-terminator characters (as every line produced
by `splitLines` is). -/
def lineCharsOk (l : Str) : Bool :=
  l.all (fun c => !(c = '\n') && !(c = '\r'))

theorem lineCharsOk_cons (c : Char) (l : Str) :
    lineCharsOk (c :: l) = true ↔
      (¬c = '\n' ∧ ¬c = '\r') ∧ lineCharsOk l = true := by
  simp [lineCharsOk, and_assoc]

theorem splitLines_ne_nil (s : Str) : splitLines s ≠ [] := by
  induction s using splitLines.induct with
  | case1 => simp [splitLines]
  | case2 rest ih => simp [splitLines]
  | case3 rest ih => simp [splitLines]
  | case4 c rest h1 h2 ih =>
    rw [splitLines]
    · cases h : splitLines rest with
      | nil => exact absurd h ih
      | cons a l => simp [List.modifyHead]
    · exact h1
    · exact h2

theorem splitLines_cons_ok (c : Char) (s : Str) (h1 : ¬c = '\n')
    (h2 : ¬c = '\r') :
    splitLines (c :: s) = List.modifyHead (fun l => c :: l) (splitLines s) := by
  rw [splitLines]
  · exact fun _ hc _ => h2 hc
  · exact fun hc => h1 hc

theorem splitLines_nl (s : Str) : splitLines ('\n' :: s) = [] :: splitLines s := by
  simp [splitLines]

theorem splitLines_append_ok (l s : Str) (h : lineCharsOk l = true) :
    splitLines (l ++ s) = List.modifyHead (fun t => l ++ t) (splitLines s) := by
  induction l with
  | nil =>
    simp only [List.nil_append]
    cases h' : splitLines s with
    | nil => exact absurd h' (splitLines_ne_nil s)
    | cons a t => simp [List.modifyHead]
  | cons c l ih =>
    rw [lineCharsOk_cons] at h
    rw [List.cons_append, splitLines_cons_ok c (l ++ s) h.1.1 h.1.2, ih h.2]
    cases h' : splitLines s with
    | nil => exact absurd h' (splitLines_ne_nil s)
    | cons a t => simp [List.modifyHead]

theorem splitLines_joinNL (ls : List Str) (hne : ls ≠ [])
    (h : ∀ l ∈ ls, lineCharsOk l = true) : splitLines (joinNL ls) = ls := by
  induction ls with
  | nil => exact absurd rfl hne
  | cons l ls ih =>
    cases ls with
    | nil =>
      have hl : lineCharsOk l = true := h l (by simp)
      show splitLines (joinNL [l]) = [l]
      have : joinNL [l] = l ++ [] := by simp [joinNL]
      rw [this, splitLines_append_ok l [] hl]
      simp [splitLines, List.modifyHead]
    | cons m ms =>
      have hl : lineCharsOk l = true := h l (by simp)
      have hjoin : joinNL (l :: m :: ms) = l ++ '\n' :: joinNL (m :: ms) := rfl
      rw [hjoin, splitLines_append_ok l _ hl, splitLines_nl,
        ih (by simp) (fun x hx => h x (by simp [hx]))]
      simp [List.modifyHead]

theorem joinNL_append (A B : List Str) (hA : A ≠ []) (hB : B ≠ []) :
    joinNL (A ++ B) = joinNL A ++ '\n' :: joinNL B := by
  induction A with
  | nil => exact absurd rfl hA
  | cons a A ih =>
    cases A with
    | nil =>
      cases B with
      | nil => exact absurd rfl hB
      | cons b B => simp [joinNL]
    | cons a' A' =>
      have h1 : joinNL ((a :: a' :: A') ++ B) =
          a ++ '\n' :: joinNL ((a' :: A') ++ B) := rfl
      have h2 : joinNL (a :: a' :: A') = a ++ '\n' :: joinNL (a' :: A') := rfl
      rw [h1, ih (by simp), h2]
      simp [List.append_assoc]

theorem joinNL_replicate_blank (k : Nat) :
    joinNL (List.replicate (k + 1) ([] : Str)) = List.replicate k '\n' := by
  induction k with
  | zero => rfl
  | succ k ih =>
    have h1 : joinNL (List.replicate (k + 1 + 1) ([] : Str)) =
        [] ++ '\n' :: joinNL (List.replicate (k + 1) ([] : Str)) := rfl
    rw [h1, ih]
    simp [List.replicate_succ]

theorem joinNL_append_blanks (L : List Str) (g : Nat) (hL : L ≠ []) :
    joinNL (L ++ List.replicate g ([] : Str)) =
      joinNL L ++ List.replicate g '\n' := by
  cases g with
  | zero => simp
  | succ g =>
    rw [joinNL_append L _ hL (by simp [List.replicate_succ]),
      joinNL_replicate_blank]
    simp [List.replicate_succ]

theorem takeWhile_append_all {α : Type} (p : α → Bool) (A B : List α)
    (h : ∀ a ∈ A, p a = true) :
    (A ++ B).takeWhile p = A ++ B.takeWhile p := by
  induction A with
  | nil => simp
  | cons a A ih =>
    have ha : p a = true := h a (by simp)
    simp [List.takeWhile_cons, ha, ih (fun x hx => h x (by simp [hx]))]

theorem takeWhile_all {α : Type} (p : α → Bool) (A : List α)
    (h : ∀ a ∈ A, p a = true) : A.takeWhile p = A := by
  induction A with
  | nil => rfl
  | cons a A ih =>
    have ha : p a = true := h a (by simp)
    simp [List.takeWhile_cons, ha, ih (fun x hx => h x (by simp [hx]))]

theorem isPrefixOf_append_self (A B : Str) : A.isPrefixOf (A ++ B) = true := by
  induction A with
  | nil => cases B <;> rfl
  | cons a A ih => simp [List.isPrefixOf, ih]

theorem isPrefixOf_ne_head (a b : Char) (A B : Str) (h : ¬a = b) :
    (a :: A).isPrefixOf (b :: B) = false := by
  simp [List.isPrefixOf, h]

theorem takeWhile_le_length {α : Type} (p : α → Bool) (l : List α) :
    (l.takeWhile p).length ≤ l.length := by
  induction l with
  | nil => simp
  | cons a l ih =>
    rw [List.takeWhile_cons]
    cases p a
    · simp
    · simp
      omega

theorem takeWhile_replicate_blank (g : Nat) :
    (List.replicate g ([] : Str)).takeWhile (fun l => l.isEmpty) =
      List.replicate g ([] : Str) :=
  takeWhile_all _ _ (by intro a ha; rw [List.eq_of_mem_replicate ha]; rfl)

/-- `parseWhitespaceLines` on a run of `g` blank lines followed by
nothing: all remaining lines are blank, so `isLast` holds and exactly
`g` newlines are returned. -/
theorem parseWhitespaceLines_all_blank (first : Bool) (g : Nat) :
    parseWhitespaceLines first (List.replicate g ([] : Str)) =
      (List.replicate g '\n', []) := by
  unfold parseWhitespaceLines
  rw [takeWhile_replicate_blank]
  simp

/-- `parseWhitespaceLines` on a run of `g` blank lines followed by a
non-blank line: `isLast` fails, so `g` lines are consumed and the
returned string has `g` newlines plus one more unless this is the
first scan position. -/
theorem parseWhitespaceLines_blanks (first : Bool) (g : Nat) (l0 : Str)
    (L : List Str) (hl0 : l0.isEmpty = false) :
    parseWhitespaceLines first (List.replicate g ([] : Str) ++ l0 :: L) =
      (List.replicate (g + (if first then 0 else 1)) '\n', l0 :: L) := by
  unfold parseWhitespaceLines
  rw [takeWhile_append_all _ _ _
    (by intro a ha; rw [List.eq_of_mem_replicate ha]; rfl)]
  rw [List.takeWhile_cons, hl0]
  simp only [Bool.false_eq_true, if_false, List.append_nil,
    List.length_replicate, List.length_append, List.length_cons]
  have hd : decide (g = g + (L.length + 1)) = false := by
    simp only [decide_eq_false_iff_not]
    omega
  have hdrop : (List.replicate g ([] : Str) ++ l0 :: L).drop g = l0 :: L := by
    have h := List.drop_left (List.replicate g ([] : Str)) (l0 :: L)
    rwa [List.length_replicate] at h
  rw [hd, hdrop]
  cases first <;> simp

theorem parseWhitespaceLines_rest_le (first : Bool) (rest : List Str) :
    ((parseWhitespaceLines first rest).2).length ≤ rest.length := by
  unfold parseWhitespaceLines
  simp only [List.length_drop]
  omega

theorem parseWhitespaceLines_rest_lt_blank (first : Bool) (l0 : Str)
    (rest : List Str) (h : l0.isEmpty = true) :
    ((parseWhitespaceLines first (l0 :: rest)).2).length ≤ rest.length := by
  unfold parseWhitespaceLines
  simp only [List.takeWhile_cons, h, if_true, List.length_cons, List.length_drop]
  omega

theorem parseCodeBlock_rest_le (lw : Str) (cbs : ICodeBlockStart)
    (tail : List Str) :
    ((parseCodeBlock lw cbs tail).2).length ≤ tail.length := by
  unfold parseCodeBlock
  refine le_trans (parseWhitespaceLines_rest_le false _) ?_
  split
  · simp
  · simp only [List.length_drop]
    omega

theorem parseMarkdownParagraph_rest_le (lw line : Str) (tail : List Str)
    (h : parseCodeBlockStart line = none) :
    ((parseMarkdownParagraph lw (line :: tail)).2).length ≤ tail.length := by
  unfold parseMarkdownParagraph
  cases hline : line.isEmpty with
  | true =>
    have hbody : (line :: tail).takeWhile
        (fun l => !l.isEmpty && !isCodeBlockStart l) = [] := by
      simp [List.takeWhile_cons, hline]
    rw [hbody]
    simpa using parseWhitespaceLines_rest_lt_blank false line tail hline
  | false =>
    have hp : (!line.isEmpty && !isCodeBlockStart line) = true := by
      simp [hline, isCodeBlockStart, h]
    have hbody : (line :: tail).takeWhile
        (fun l => !l.isEmpty && !isCodeBlockStart l) =
        line :: tail.takeWhile (fun l => !l.isEmpty && !isCodeBlockStart l) := by
      simp [List.takeWhile_cons, hp]
    rw [hbody]
    refine le_trans (parseWhitespaceLines_rest_le false _) ?_
    simp only [List.length_cons, List.length_drop]
    have := takeWhile_le_length
      (fun l => !l.isEmpty && !isCodeBlockStart l) tail
    omega

theorem parseLoopF_nil (f : Nat) : parseLoopF f [] = [] := by
  cases f <;> rfl

theorem parseLoopF_congr (n : Nat) : ∀ (rest : List Str), rest.length ≤ n →
    ∀ f1 f2 : Nat, rest.length ≤ f1 → rest.length ≤ f2 →
      parseLoopF f1 rest = parseLoopF f2 rest := by
  induction n with
  | zero =>
    intro rest hn f1 f2 h1 h2
    have : rest = [] := List.length_eq_zero.mp (Nat.le_zero.mp hn)
    subst this
    rw [parseLoopF_nil, parseLoopF_nil]
  | succ n ih =>
    intro rest hn f1 f2 h1 h2
    cases rest with
    | nil => rw [parseLoopF_nil, parseLoopF_nil]
    | cons line tail =>
      simp only [List.length_cons] at hn h1 h2
      obtain ⟨a, rfl⟩ : ∃ a, f1 = a + 1 :=
        ⟨f1 - 1, by omega⟩
      obtain ⟨b, rfl⟩ : ∃ b, f2 = b + 1 :=
        ⟨f2 - 1, by omega⟩
      rw [parseLoopF, parseLoopF]
      cases hcbs : parseCodeBlockStart line with
      | some cbs =>
        simp only
        have hle := parseCodeBlock_rest_le [] cbs tail
        rw [ih (parseCodeBlock [] cbs tail).2 (by omega) a b (by omega) (by omega)]
      | none =>
        simp only
        have hle := parseMarkdownParagraph_rest_le [] line tail hcbs
        rw [ih (parseMarkdownParagraph [] (line :: tail)).2 (by omega) a b
          (by omega) (by omega)]

theorem parseLoop_nil : parseLoop [] = [] := rfl

theorem parseLoop_cons (line : Str) (tail : List Str) :
    parseLoop (line :: tail) = parseBlockAnd [] line tail := by
  unfold parseLoop parseBlockAnd
  have hlen : (line :: tail).length = tail.length + 1 := rfl
  rw [hlen, parseLoopF]
  cases hcbs : parseCodeBlockStart line with
  | some cbs =>
    simp only
    rw [parseLoopF_congr tail.length (parseCodeBlock [] cbs tail).2
      (parseCodeBlock_rest_le [] cbs tail) tail.length
      (parseCodeBlock [] cbs tail).2.length
      (parseCodeBlock_rest_le [] cbs tail) (le_refl _)]
    rfl
  | none =>
    simp only
    rw [parseLoopF_congr tail.length (parseMarkdownParagraph [] (line :: tail)).2
      (parseMarkdownParagraph_rest_le [] line tail hcbs) tail.length
      (parseMarkdownParagraph [] (line :: tail)).2.length
      (parseMarkdownParagraph_rest_le [] line tail hcbs) (le_refl _)]
    rfl

theorem eq_append_of_isPrefixOf (A l : Str) (h : A.isPrefixOf l = true) :
    l = A ++ l.drop A.length := by
  induction A generalizing l with
  | nil => simp
  | cons a A ih =>
    cases l with
    | nil => simp [List.isPrefixOf] at h
    | cons b l' =>
      simp only [List.isPrefixOf, Bool.and_eq_true, beq_iff_eq] at h
      obtain ⟨rfl, h2⟩ := h
      simpa using ih l' h2

theorem parseCodeBlock_cell_leading (lw : Str) (cbs : ICodeBlockStart)
    (tail : List Str) :
    ((parseCodeBlock lw cbs tail).1).leadingWhitespace = lw := rfl

theorem parseMarkdownParagraph_cell_leading (lw : Str) (rest : List Str) :
    ((parseMarkdownParagraph lw rest).1).leadingWhitespace = lw := rfl

theorem parseCodeBlock_cell_notYaml (lw : Str) (cbs : ICodeBlockStart)
    (tail : List Str) :
    ((parseCodeBlock lw cbs tail).1).isEmbeddedYaml = false := rfl

theorem parseMarkdownParagraph_cell_notYaml (lw : Str) (rest : List Str) :
    ((parseMarkdownParagraph lw rest).1).isEmbeddedYaml = false := rfl

theorem parseLoopF_leading (f : Nat) : ∀ (rest : List Str)
    (cell : RawNotebookCell), cell ∈ parseLoopF f rest →
    cell.leadingWhitespace = [] := by
  induction f with
  | zero => intro rest cell h; simp [parseLoopF] at h
  | succ f ih =>
    intro rest cell h
    cases rest with
    | nil => simp [parseLoopF_nil] at h
    | cons line tail =>
      rw [parseLoopF] at h
      cases hcbs : parseCodeBlockStart line with
      | some cbs =>
        rw [hcbs] at h
        simp only [List.mem_cons] at h
        cases h with
        | inl h => rw [h]; exact parseCodeBlock_cell_leading [] cbs tail
        | inr h => exact ih _ cell h
      | none =>
        rw [hcbs] at h
        simp only [List.mem_cons] at h
        cases h with
        | inl h => rw [h]; exact parseMarkdownParagraph_cell_leading [] _
        | inr h => exact ih _ cell h

theorem parseLoopF_notYaml (f : Nat) : ∀ (rest : List Str)
    (cell : RawNotebookCell), cell ∈ parseLoopF f rest →
    cell.isEmbeddedYaml = false := by
  induction f with
  | zero => intro rest cell h; simp [parseLoopF] at h
  | succ f ih =>
    intro rest cell h
    cases rest with
    | nil => simp [parseLoopF_nil] at h
    | cons line tail =>
      rw [parseLoopF] at h
      cases hcbs : parseCodeBlockStart line with
      | some cbs =>
        rw [hcbs] at h
        simp only [List.mem_cons] at h
        cases h with
        | inl h => rw [h]; exact parseCodeBlock_cell_notYaml [] cbs tail
        | inr h => exact ih _ cell h
      | none =>
        rw [hcbs] at h
        simp only [List.mem_cons] at h
        cases h with
        | inl h => rw [h]; exact parseMarkdownParagraph_cell_notYaml [] _
        | inr h => exact ih _ cell h

theorem parseBlockAnd_tail_eq (lw line : Str) (tail : List Str) :
    ∃ r : RawNotebookCell × List Str,
      parseBlockAnd lw line tail = r.1 :: parseLoop r.2 ∧
      r.1.isEmbeddedYaml = false ∧ r.1.leadingWhitespace = lw := by
  unfold parseBlockAnd
  cases hcbs : parseCodeBlockStart line with
  | some cbs => exact ⟨parseCodeBlock lw cbs tail, rfl, rfl, rfl⟩
  | none => exact ⟨parseMarkdownParagraph lw (line :: tail), rfl, rfl, rfl⟩

theorem parseEmbeddedYAML_some (yamlOk : Str → Bool) (lw : Str)
    (tail : List Str) (x : RawNotebookCell × List Str)
    (h : parseEmbeddedYAML yamlOk lw tail = some x) :
    (tail.takeWhile (fun l => !(l == str "---"))).length < tail.length ∧
      yamlOk (joinNL (tail.takeWhile (fun l => !(l == str "---")))) = true ∧
      x.1.isEmbeddedYaml = true := by
  unfold parseEmbeddedYAML at h
  dsimp only at h
  split at h
  · exact absurd h (by simp)
  · rename_i hne
    split at h
    · rename_i hok
      refine ⟨?_, hok, ?_⟩
      · exact lt_of_le_of_ne (takeWhile_le_length _ tail) hne
      · cases h
        rfl
    · exact absurd h (by simp)

theorem parseCodeBlockStart_ne_nil (l : Str) (cbs : ICodeBlockStart)
    (h : parseCodeBlockStart l = some cbs) : l.isEmpty = false := by
  cases l with
  | nil => simp [parseCodeBlockStart] at h
  | cons c rest => rfl

/-- `parseWhitespaceLines` at a non-blank first line consumes
nothing. -/
theorem parseWhitespaceLines_head_nonblank (first : Bool) (l0 : Str)
    (L : List Str) (hl0 : l0.isEmpty = false) :
    parseWhitespaceLines first (l0 :: L) =
      (List.replicate (if first then 0 else 1) '\n', l0 :: L) := by
  have h := parseWhitespaceLines_blanks first 0 l0 L hl0
  simpa using h

/-- Every successful parse result is one cell followed by the cells of
the non-first loop iterations. -/
theorem parseMarkdown_ok_tail (yamlOk : Str → Bool) (content : Str)
    (cells : List RawNotebookCell)
    (h : parseMarkdown yamlOk content = Except.ok cells) :
    ∃ (c0 : RawNotebookCell) (rest : List Str),
      cells = c0 :: parseLoop rest := by
  unfold parseMarkdown at h
  dsimp only at h
  split at h
  · exact absurd h (by simp)
  · rename_i line tail heq
    split at h
    · split at h
      · rename_i cell rest hx
        injection h with h
        exact ⟨cell, rest, h.symm⟩
      · injection h with h
        obtain ⟨r, hr, _, _⟩ := parseBlockAnd_tail_eq
          (parseWhitespaceLines true (splitLines content)).1 line tail
        exact ⟨r.1, r.2, by rw [← h, hr]⟩
    · injection h with h
      obtain ⟨r, hr, _, _⟩ := parseBlockAnd_tail_eq
        (parseWhitespaceLines true (splitLines content)).1 line tail
      exact ⟨r.1, r.2, by rw [← h, hr]⟩

theorem parseCodeBlockStart_cons (c : Char) (rest : Str) :
    parseCodeBlockStart (c :: rest) =
      match fenceAt (c :: rest) with
      | some r => some r
      | none => parseCodeBlockStart rest := rfl

theorem fenceAt_isSome_of_fence_first (s : Str)
    (h : fenceMarker.isPrefixOf s = true) : (fenceAt s).isSome = true := by
  unfold fenceAt
  rw [if_pos h]
  split
  · rfl
  · split
    · rfl
    · rfl

theorem exists_fence_of_isCodeBlockStart (l : Str)
    (h : isCodeBlockStart l = true) :
    ∃ A B : Str, l = A ++ fenceMarker ++ B := by
  induction l with
  | nil => simp [isCodeBlockStart, parseCodeBlockStart] at h
  | cons c rest ih =>
    by_cases h1 : (str "    " ++ fenceMarker).isPrefixOf (c :: rest) = true
    · refine ⟨str "    ", (c :: rest).drop (str "    " ++ fenceMarker).length, ?_⟩
      have he := eq_append_of_isPrefixOf (str "    " ++ fenceMarker) (c :: rest) h1
      simpa [List.append_assoc] using he
    · by_cases h2 : ('\t' :: fenceMarker).isPrefixOf (c :: rest) = true
      · refine ⟨['\t'], (c :: rest).drop ('\t' :: fenceMarker).length, ?_⟩
        have he := eq_append_of_isPrefixOf ('\t' :: fenceMarker) (c :: rest) h2
        simpa [List.append_assoc] using he
      · by_cases h3 : fenceMarker.isPrefixOf (c :: rest) = true
        · refine ⟨[], (c :: rest).drop fenceMarker.length, ?_⟩
          have he := eq_append_of_isPrefixOf fenceMarker (c :: rest) h3
          simpa [List.append_assoc] using he
        · have hf : fenceAt (c :: rest) = none := by
            unfold fenceAt
            rw [if_neg h1, if_neg h2, if_neg h3]
          rw [isCodeBlockStart, parseCodeBlockStart_cons, hf] at h
          obtain ⟨A, B, hAB⟩ := ih h
          exact ⟨c :: A, B, by rw [hAB]; rfl⟩

theorem isCodeBlockStart_of_fence (A B : Str) :
    isCodeBlockStart (A ++ fenceMarker ++ B) = true := by
  induction A with
  | nil =>
    rw [List.nil_append, isCodeBlockStart]
    have hfm : fenceMarker ++ B = '`' :: ('`' :: ('`' :: B)) := rfl
    rw [hfm, parseCodeBlockStart_cons]
    have hp : fenceMarker.isPrefixOf ('`' :: ('`' :: ('`' :: B))) = true := by
      have := isPrefixOf_append_self fenceMarker B
      rwa [hfm] at this
    have hs := fenceAt_isSome_of_fence_first _ hp
    cases hf : fenceAt ('`' :: ('`' :: ('`' :: B))) with
    | some r => rfl
    | none => rw [hf] at hs; simp at hs
  | cons a A' ih =>
    rw [isCodeBlockStart]
    have hc : (a :: A') ++ fenceMarker ++ B =
        a :: (A' ++ fenceMarker ++ B) := by simp
    rw [hc, parseCodeBlockStart_cons]
    cases hf : fenceAt (a :: (A' ++ fenceMarker ++ B)) with
    | some r => rfl
    | none => exact ih

/-- `parseMarkdown` when the first line is non-blank and not `---`:
the document is the first block's parse followed by the loop. -/
theorem parseMarkdown_no_frontmatter (yamlOk : Str → Bool) (content l0 : Str)
    (tail : List Str) (hsplit : splitLines content = l0 :: tail)
    (hl0 : l0.isEmpty = false) (hne : (l0 == str "---") = false) :
    parseMarkdown yamlOk content = Except.ok (parseBlockAnd [] l0 tail) := by
  unfold parseMarkdown
  rw [hsplit]
  dsimp only
  rw [parseWhitespaceLines_head_nonblank true l0 tail hl0]
  simp [hne]

/-- `parseMarkdown` when the first line is exactly `---`: front matter
is attempted, with prose/code fall-through on failure. -/
theorem parseMarkdown_dashes (yamlOk : Str → Bool) (content : Str)
    (tail : List Str) (hsplit : splitLines content = (str "---") :: tail) :
    parseMarkdown yamlOk content =
      (match parseEmbeddedYAML yamlOk [] tail with
       | some (cell, rest) => Except.ok (cell :: parseLoop rest)
       | none => Except.ok (parseBlockAnd [] (str "---") tail)) := by
  unfold parseMarkdown
  rw [hsplit]
  dsimp only
  rw [parseWhitespaceLines_head_nonblank true (str "---") tail (by decide)]
  simp

/-- A parsed Prose cell (`parseMarkdownParagraph` pushes exactly this
shape). -/
def mdCell (lw tw ctt : Str) : RawNotebookCell :=
  { indentation := none, leadingWhitespace := lw, trailingWhitespace := tw,
    language := str "markdown", content := ctt,
    kind := NotebookCellKind.Markdown, isEmbeddedYaml := false }

/-- A parsed Code cell (`parseCodeBlock` pushes exactly this shape). -/
def codeCell (ind : Option Str) (lw tw lang ctt : Str) : RawNotebookCell :=
  { indentation := ind, leadingWhitespace := lw, trailingWhitespace := tw,
    language := lang, content := ctt,
    kind := NotebookCellKind.Code, isEmbeddedYaml := false }

/-- A parsed front-matter cell (`parseEmbeddedYAML` pushes exactly
this shape). -/
def yamlCell (lw tw ctt : Str) : RawNotebookCell :=
  { indentation := none, leadingWhitespace := lw, trailingWhitespace := tw,
    language := str "yaml", content := ctt,
    kind := NotebookCellKind.Code, isEmbeddedYaml := true }

/-- A freshly inserted notebook cell: no `custom` metadata. -/
def freshCell (kind : NotebookCellKind) (langId text : Str) : NotebookCell :=
  { kind := kind, languageId := langId, text := text, custom := none }

/-!
The round-trip class for C1.  A `SimpleDoc` is a leading run of blank
lines followed by blocks — prose paragraphs and explicitly closed
fenced code blocks — separated by runs of blank lines.  `SimpleDoc.wf`
collects exactly the side conditions under which the parse/serialize
round trip is byte-exact (see `claim_C1_roundtrip`); the C1
counterexample shows the claim fails without them even on
serializer-produced text.
-/

/-- A document block: a prose paragraph (its lines), or a fenced code
block (captured indentation, fence tag, and the body lines as they
appear in the document, indentation included). -/
inductive Block where
  | prose (body : List Str)
  | code (ind : Option Str) (tag : Str) (body : List Str)
deriving DecidableEq

/-- The literal indentation of an optional indentation group. -/
def indStr : Option Str → Str
  | none => []
  | some s => s

/-- The document lines of a block. -/
def Block.lines : Block → List Str
  | .prose body => body
  | .code ind tag body =>
      (indStr ind ++ fenceMarker ++ tag) :: (body ++ [indStr ind ++ fenceMarker])

/-- A document of the round-trip class: `leadBlanks` blank lines, then
blocks each followed by a run of blank lines. -/
structure SimpleDoc where
  leadBlanks : Nat
  blocks : List (Block × Nat)
deriving DecidableEq

/-- The lines contributed by a block list. -/
def blocksLines : List (Block × Nat) → List Str
  | [] => []
  | (b, g) :: rest => b.lines ++ List.replicate g [] ++ blocksLines rest

/-- The lines of a document of the class. -/
def SimpleDoc.lines (d : SimpleDoc) : List Str :=
  List.replicate d.leadBlanks [] ++ blocksLines d.blocks

/-- The document text: its lines joined by `\n`. -/
def SimpleDoc.text (d : SimpleDoc) : Str := joinNL d.lines

/-- A prose line: non-blank, not containing a fence marker, and free
of line terminators. -/
def proseLineOk (l : Str) : Bool :=
  !l.isEmpty && !isCodeBlockStart l && lineCharsOk l

/-- An indentation group the fence regex can capture. -/
def indOk : Option Str → Bool
  | none => true
  | some s => s == str "    " || s == str "\t"

/-- A fence tag that decodes and re-encodes to itself (so `js` or
`c++` or any unknown tag, but not `py`, whose canonical id re-encodes
to `py3`). -/
def tagOk (tag : Str) : Bool :=
  tag.all (fun c => !jsWhitespace c) && (encodeTag (decodeTag tag) == tag)

/-- A code body line: not a closing-fence line, free of line
terminators, carrying the block's indentation as a literal prefix
(when indented) and not starting with the literal text `undefined`
(when not — see `stripIndentation`). -/
def codeLineOk (ind : Option Str) (l : Str) : Bool :=
  !isCodeBlockEndLine l && lineCharsOk l &&
    (match ind with
     | some s => s.isPrefixOf l
     | none => !((str "undefined").isPrefixOf l))

/-- Well-formedness of one block. -/
def Block.wf : Block → Bool
  | .prose body => !body.isEmpty && body.all proseLineOk
  | .code ind tag body =>
      indOk ind && tagOk tag && !body.isEmpty && body.all (codeLineOk ind)

/-- Two prose blocks may not be adjacent with a zero-length gap (the
paragraph scanner would merge them). -/
def pairOk : Block × Nat → Block → Bool
  | (.prose _, 0), .prose _ => false
  | _, _ => true

/-- Adjacency condition along the block list. -/
def adjOk : List (Block × Nat) → Bool
  | bg1 :: bg2 :: rest => pairOk bg1 bg2.1 && adjOk (bg2 :: rest)
  | _ => true

/-- The document must not look like front matter: a first prose line
of exactly `---` would trigger the front-matter attempt. -/
def firstOk : List (Block × Nat) → Bool
  | (.prose (l :: _), _) :: _ => !(l == str "---")
  | _ => true

/-- Well-formedness of a document of the class. -/
def SimpleDoc.wf (d : SimpleDoc) : Bool :=
  !d.blocks.isEmpty && d.blocks.all (fun bg => bg.1.wf) &&
    adjOk d.blocks && firstOk d.blocks

/-- The trailing-whitespace string captured after a block followed by
`g` blank lines (`isLast`: nothing follows the blank run). -/
def trailOf (g : Nat) (isLast : Bool) : Str :=
  List.replicate (if isLast then g else g + 1) '\n'

/-- The cell the parser produces for one block. -/
def blockCell (b : Block) (lw tw : Str) : RawNotebookCell :=
  match b with
  | .prose body => mdCell lw tw (joinNL body)
  | .code ind tag body =>
      codeCell ind lw tw (decodeTag tag)
        (joinNL (body.map (stripIndentation ind)))

/-- The cell list the parser produces for a block list (the last
block's trailing run is final). -/
def cellsOf (lw : Str) : List (Block × Nat) → List RawNotebookCell
  | [] => []
  | [(b, g)] => [blockCell b lw (trailOf g true)]
  | (b, g) :: bg2 :: rest =>
      blockCell b lw (trailOf g false) :: cellsOf [] (bg2 :: rest)

theorem isPrefixOf_eq_false_of_ne_head (a b : Char) (A B : Str)
    (hA : A.head? = some a) (hB : B.head? = some b) (h : ¬a = b) :
    A.isPrefixOf B = false := by
  cases A with
  | nil => simp at hA
  | cons x A' =>
    cases B with
    | nil => rfl
    | cons y B' =>
      simp only [List.head?_cons, Option.some.injEq] at hA hB
      rw [← hA, ← hB] at h
      exact isPrefixOf_ne_head x y A' B' h

theorem fenceAt_fence_plain (tag : Str) :
    fenceAt (fenceMarker ++ tag) =
      some ⟨none, tag.takeWhile (fun c => !jsWhitespace c)⟩ := by
  unfold fenceAt
  rw [if_neg, if_neg, if_pos (isPrefixOf_append_self fenceMarker tag)]
  · rfl
  · have hx := isPrefixOf_eq_false_of_ne_head '\t' '`'
      ('\t' :: fenceMarker) (fenceMarker ++ tag) rfl rfl (by decide)
    simp [hx]
  · have hx := isPrefixOf_eq_false_of_ne_head ' ' '`'
      (str "    " ++ fenceMarker) (fenceMarker ++ tag) rfl rfl (by decide)
    simp [hx]

theorem fenceAt_fence_spaces (tag : Str) :
    fenceAt (str "    " ++ fenceMarker ++ tag) =
      some ⟨some (str "    "), tag.takeWhile (fun c => !jsWhitespace c)⟩ := by
  unfold fenceAt
  have hp : (str "    " ++ fenceMarker).isPrefixOf
      (str "    " ++ fenceMarker ++ tag) = true := by
    have h := isPrefixOf_append_self (str "    " ++ fenceMarker) tag
    rwa [List.append_assoc] at h
  rw [if_pos hp]
  rfl

theorem fenceAt_fence_tab (tag : Str) :
    fenceAt (indStr (some (str "\t")) ++ fenceMarker ++ tag) =
      some ⟨some ['\t'], tag.takeWhile (fun c => !jsWhitespace c)⟩ := by
  unfold fenceAt
  rw [if_neg, if_pos]
  · rfl
  · have h := isPrefixOf_append_self ('\t' :: fenceMarker) tag
    have he : ('\t' :: fenceMarker) ++ tag =
        indStr (some (str "\t")) ++ fenceMarker ++ tag := by
      simp [indStr, str]
    rwa [he] at h
  · have hx := isPrefixOf_eq_false_of_ne_head ' ' '\t'
      (str "    " ++ fenceMarker) (indStr (some (str "\t")) ++ fenceMarker ++ tag)
      rfl rfl (by decide)
    intro hc
    rw [hc] at hx
    exact absurd hx (by decide)

theorem takeWhile_tag (tag : Str)
    (htag : tag.all (fun c => !jsWhitespace c) = true) :
    tag.takeWhile (fun c => !jsWhitespace c) = tag :=
  takeWhile_all _ tag (fun c hc => List.all_eq_true.mp htag c hc)

/-- The possible captured indentations. -/
theorem indOk_cases (ind : Option Str) (h : indOk ind = true) :
    ind = none ∨ ind = some (str "    ") ∨ ind = some (str "\t") := by
  cases ind with
  | none => exact Or.inl rfl
  | some s =>
    simp only [indOk, Bool.or_eq_true, beq_iff_eq] at h
    cases h with
    | inl h => exact Or.inr (Or.inl (by rw [h]))
    | inr h => exact Or.inr (Or.inr (by rw [h]))

/-- The regex matches an opening fence line at offset 0 and captures
exactly the written indentation and tag. -/
theorem parseCodeBlockStart_open (ind : Option Str) (tag : Str)
    (hind : indOk ind = true)
    (htag : tag.all (fun c => !jsWhitespace c) = true) :
    parseCodeBlockStart (indStr ind ++ fenceMarker ++ tag) =
      some ⟨ind, tag⟩ := by
  rcases indOk_cases ind hind with h | h | h
  · subst h
    have hc : indStr none ++ fenceMarker ++ tag =
        '`' :: ('`' :: ('`' :: tag)) := rfl
    rw [hc, parseCodeBlockStart_cons, ← hc]
    have hf := fenceAt_fence_plain tag
    have hc2 : fenceMarker ++ tag = indStr none ++ fenceMarker ++ tag := rfl
    rw [hc2] at hf
    rw [hf, takeWhile_tag tag htag]
  · subst h
    have hc : indStr (some (str "    ")) ++ fenceMarker ++ tag =
        ' ' :: (' ' :: (' ' :: (' ' :: ('`' :: ('`' :: ('`' :: tag)))))) := rfl
    rw [hc, parseCodeBlockStart_cons, ← hc]
    have hf := fenceAt_fence_spaces tag
    have hc2 : str "    " ++ fenceMarker ++ tag =
        indStr (some (str "    ")) ++ fenceMarker ++ tag := rfl
    rw [hc2] at hf
    rw [hf, takeWhile_tag tag htag]
  · subst h
    have hc : indStr (some (str "\t")) ++ fenceMarker ++ tag =
        '\t' :: ('`' :: ('`' :: ('`' :: tag))) := rfl
    rw [hc, parseCodeBlockStart_cons, ← hc]
    rw [fenceAt_fence_tab tag, takeWhile_tag tag htag]
    rfl

/-- A closing fence line `indentation + three backticks` is recognised
by `isCodeBlockEndLine`. -/
theorem isCodeBlockEndLine_close (ind : Option Str) (hind : indOk ind = true) :
    isCodeBlockEndLine (indStr ind ++ fenceMarker) = true := by
  rcases indOk_cases ind hind with h | h | h <;> subst h <;> decide

theorem openLine_nonblank (ind : Option Str) (tag : Str)
    (hind : indOk ind = true) :
    (indStr ind ++ fenceMarker ++ tag).isEmpty = false := by
  rcases indOk_cases ind hind with h | h | h <;> subst h <;> rfl

/-- Every line a list can start with is non-blank. -/
def headOk (L : List Str) : Prop :=
  ∀ l0, L.head? = some l0 → l0.isEmpty = false

theorem headOk_nil : headOk [] := by
  intro l0 h
  simp at h

theorem head?_append_ne_nil (A B : List Str) (h : A ≠ []) :
    (A ++ B).head? = A.head? := by
  cases A with
  | nil => exact absurd rfl h
  | cons a A' => rfl

theorem Block.wf_prose_iff (body : List Str) :
    (Block.prose body).wf = true ↔
      body ≠ [] ∧ ∀ l ∈ body, proseLineOk l = true := by
  simp [Block.wf, List.all_eq_true]

theorem Block.wf_code_iff (ind : Option Str) (tag : Str) (body : List Str) :
    (Block.code ind tag body).wf = true ↔
      indOk ind = true ∧ tagOk tag = true ∧ body ≠ [] ∧
        ∀ l ∈ body, codeLineOk ind l = true := by
  simp [Block.wf, List.all_eq_true, and_assoc]

theorem proseLineOk_iff (l : Str) :
    proseLineOk l = true ↔
      l.isEmpty = false ∧ isCodeBlockStart l = false ∧ lineCharsOk l = true := by
  simp [proseLineOk, and_assoc]

theorem codeLineOk_parts (ind : Option Str) (l : Str)
    (h : codeLineOk ind l = true) :
    isCodeBlockEndLine l = false ∧ lineCharsOk l = true := by
  unfold codeLineOk at h
  simp only [Bool.and_eq_true, Bool.not_eq_true'] at h
  exact ⟨h.1.1, h.1.2⟩

theorem Block.lines_ne_nil (b : Block) (hwf : b.wf = true) :
    b.lines ≠ [] := by
  cases b with
  | prose body =>
    obtain ⟨hne, _⟩ := (Block.wf_prose_iff body).mp hwf
    exact hne
  | code ind tag body => simp [Block.lines]

theorem Block.lines_headOk (b : Block) (hwf : b.wf = true) :
    headOk b.lines := by
  cases b with
  | prose body =>
    obtain ⟨hne, hall⟩ := (Block.wf_prose_iff body).mp hwf
    intro l0 h0
    cases body with
    | nil => exact absurd rfl hne
    | cons l body' =>
      simp only [Block.lines, List.head?_cons, Option.some.injEq] at h0
      rw [← h0]
      exact ((proseLineOk_iff l).mp (hall l (by simp))).1
  | code ind tag body =>
    obtain ⟨hind, _, _, _⟩ := (Block.wf_code_iff ind tag body).mp hwf
    intro l0 h0
    simp only [Block.lines, List.head?_cons, Option.some.injEq] at h0
    rw [← h0]
    exact openLine_nonblank ind tag hind

theorem blocksLines_ne_nil (bs : List (Block × Nat)) (hne : bs ≠ [])
    (hwf : bs.all (fun bg => bg.1.wf) = true) : blocksLines bs ≠ [] := by
  cases bs with
  | nil => exact absurd rfl hne
  | cons bg rest =>
    obtain ⟨b, g⟩ := bg
    have hb : b.wf = true := by
      have := List.all_eq_true.mp hwf (b, g) (by simp)
      exact this
    simp only [blocksLines]
    intro hcontra
    rw [List.append_assoc] at hcontra
    exact absurd (List.append_eq_nil.mp hcontra).1 (Block.lines_ne_nil b hb)

theorem blocksLines_headOk (bs : List (Block × Nat))
    (hwf : bs.all (fun bg => bg.1.wf) = true) : headOk (blocksLines bs) := by
  cases bs with
  | nil => exact headOk_nil
  | cons bg rest =>
    obtain ⟨b, g⟩ := bg
    have hb : b.wf = true := by
      have := List.all_eq_true.mp hwf (b, g) (by simp)
      exact this
    intro l0 h0
    simp only [blocksLines] at h0
    rw [List.append_assoc,
      head?_append_ne_nil b.lines _ (Block.lines_ne_nil b hb)] at h0
    exact Block.lines_headOk b hb l0 h0

theorem lineCharsOk_append (A B : Str) :
    lineCharsOk (A ++ B) = (lineCharsOk A && lineCharsOk B) := by
  simp [lineCharsOk]

theorem lineCharsOk_drop (l : Str) (n : Nat) (h : lineCharsOk l = true) :
    lineCharsOk (l.drop n) = true := by
  unfold lineCharsOk at h ⊢
  rw [List.all_eq_true] at h ⊢
  exact fun x hx => h x (List.drop_subset n l hx)

theorem tag_charsOk (tag : Str)
    (htag : tag.all (fun c => !jsWhitespace c) = true) :
    lineCharsOk tag = true := by
  unfold lineCharsOk
  rw [List.all_eq_true] at htag ⊢
  intro x hx
  have hns := htag x hx
  simp only [jsWhitespace, Bool.not_eq_true', Bool.or_eq_false_iff,
    decide_eq_false_iff_not] at hns
  simp only [Bool.and_eq_true, Bool.not_eq_true', decide_eq_false_iff_not]
  exact ⟨hns.1.1.1.1.1.2, hns.1.1.1.1.2⟩

theorem indStr_charsOk (ind : Option Str) (hind : indOk ind = true) :
    lineCharsOk (indStr ind) = true := by
  rcases indOk_cases ind hind with h | h | h <;> subst h <;> decide

theorem stripIndentation_restore (ind : Option Str) (l : Str)
    (h : codeLineOk ind l = true) :
    indStr ind ++ stripIndentation ind l = l := by
  cases ind with
  | none =>
    unfold codeLineOk at h
    simp only [Bool.and_eq_true, Bool.not_eq_true'] at h
    show ([] : Str) ++
      (if (str "undefined").isPrefixOf l = true then l.drop 9 else l) = l
    simp [h.2]
  | some s =>
    unfold codeLineOk at h
    simp only [Bool.and_eq_true, Bool.not_eq_true'] at h
    show s ++ (if s.isPrefixOf l = true then l.drop s.length else l) = l
    rw [if_pos h.2]
    exact (eq_append_of_isPrefixOf s l h.2).symm

theorem stripIndentation_charsOk (ind : Option Str) (l : Str)
    (h : lineCharsOk l = true) :
    lineCharsOk (stripIndentation ind l) = true := by
  cases ind with
  | none =>
    show lineCharsOk
      (if (str "undefined").isPrefixOf l = true then l.drop 9 else l) = true
    split
    · exact lineCharsOk_drop l 9 h
    · exact h
  | some s =>
    show lineCharsOk
      (if s.isPrefixOf l = true then l.drop s.length else l) = true
    split
    · exact lineCharsOk_drop l s.length h
    · exact h

theorem blocksLines_charsOk (bs : List (Block × Nat))
    (hwf : bs.all (fun bg => bg.1.wf) = true) :
    ∀ l ∈ blocksLines bs, lineCharsOk l = true := by
  induction bs with
  | nil => intro l hl; simp [blocksLines] at hl
  | cons bg rest ih =>
    obtain ⟨b, g⟩ := bg
    have hb : b.wf = true := by
      have := List.all_eq_true.mp hwf (b, g) (by simp)
      exact this
    have hrest : rest.all (fun bg => bg.1.wf) = true := by
      rw [List.all_eq_true] at hwf ⊢
      exact fun x hx => hwf x (by simp [hx])
    intro l hl
    simp only [blocksLines, List.mem_append] at hl
    rcases hl with (hl | hl) | hl
    · cases b with
      | prose body =>
        obtain ⟨_, hall⟩ := (Block.wf_prose_iff body).mp hb
        exact ((proseLineOk_iff l).mp (hall l hl)).2.2
      | code ind tag body =>
        obtain ⟨hind, htagOk, _, hall⟩ := (Block.wf_code_iff ind tag body).mp hb
        have htag : tag.all (fun c => !jsWhitespace c) = true := by
          unfold tagOk at htagOk
          simp only [Bool.and_eq_true] at htagOk
          exact htagOk.1
        simp only [Block.lines, List.mem_cons, List.mem_append,
          List.mem_singleton] at hl
        rcases hl with hl | hl | hl | hl
        · rw [hl, lineCharsOk_append, lineCharsOk_append]
          rw [indStr_charsOk ind hind, tag_charsOk tag htag]
          decide
        · exact (codeLineOk_parts ind l (hall l hl)).2
        · rw [hl, lineCharsOk_append, indStr_charsOk ind hind]
          decide
        · simp at hl
    · rw [List.eq_of_mem_replicate hl]
      decide
    · exact ih hrest l hl

/-- `splitLines` recovers the lines of a well-formed document from its
text. -/
theorem splitLines_SimpleDoc (d : SimpleDoc) (hwf : d.wf = true) :
    splitLines d.text = d.lines := by
  unfold SimpleDoc.wf at hwf
  simp only [Bool.and_eq_true, Bool.not_eq_true'] at hwf
  have hbne : d.blocks ≠ [] := by
    intro hc
    rw [hc] at hwf
    simp at hwf
  apply splitLines_joinNL
  · unfold SimpleDoc.lines
    intro hc
    exact absurd (List.append_eq_nil.mp hc).2
      (blocksLines_ne_nil d.blocks hbne hwf.1.1.2)
  · intro l hl
    unfold SimpleDoc.lines at hl
    rw [List.mem_append] at hl
    cases hl with
    | inl hl => rw [List.eq_of_mem_replicate hl]; decide
    | inr hl => exact blocksLines_charsOk d.blocks hwf.1.1.2 l hl

/-- `parseWhitespaceLines` (non-first) over a blank run followed by a
stream whose head, if any, is non-blank. -/
theorem parseWhitespaceLines_stream (g : Nat) (L : List Str) (hL : headOk L) :
    parseWhitespaceLines false (List.replicate g ([] : Str) ++ L) =
      (trailOf g L.isEmpty, L) := by
  cases L with
  | nil =>
    have h := parseWhitespaceLines_all_blank false g
    simpa [trailOf] using h
  | cons l0 L' =>
    have h0 : l0.isEmpty = false := hL l0 rfl
    rw [parseWhitespaceLines_blanks false g l0 L' h0]
    simp [trailOf]

/-- `parseCodeBlock` over a well-formed code block followed by a blank
run and a stream. -/
theorem parseCodeBlock_stream (lw : Str) (ind : Option Str) (tag : Str)
    (body : List Str) (g : Nat) (L : List Str)
    (hwf : (Block.code ind tag body).wf = true) (hL : headOk L) :
    parseCodeBlock lw ⟨ind, tag⟩
        (body ++ [indStr ind ++ fenceMarker] ++ List.replicate g [] ++ L) =
      (blockCell (Block.code ind tag body) lw (trailOf g L.isEmpty), L) := by
  obtain ⟨hind, htagOk, hbne, hall⟩ := (Block.wf_code_iff ind tag body).mp hwf
  have hclose : isCodeBlockEndLine (indStr ind ++ fenceMarker) = true :=
    isCodeBlockEndLine_close ind hind
  have hassoc : body ++ [indStr ind ++ fenceMarker] ++ List.replicate g [] ++ L =
      body ++ ((indStr ind ++ fenceMarker) ::
        (List.replicate g ([] : Str) ++ L)) := by
    simp [List.append_assoc]
  unfold parseCodeBlock
  rw [hassoc]
  have hpre : (body ++ ((indStr ind ++ fenceMarker) ::
      (List.replicate g ([] : Str) ++ L))).takeWhile
        (fun l => !isCodeBlockEndLine l) = body := by
    rw [takeWhile_append_all _ body _ (by
      intro a ha
      rw [(codeLineOk_parts ind a (hall a ha)).1]
      rfl)]
    rw [List.takeWhile_cons, hclose]
    simp
  rw [hpre]
  dsimp only
  have hlen : ¬body.length = (body ++ ((indStr ind ++ fenceMarker) ::
      (List.replicate g ([] : Str) ++ L))).length := by
    simp
  rw [if_neg hlen, if_neg hlen]
  have hdrop : (body ++ ((indStr ind ++ fenceMarker) ::
      (List.replicate g ([] : Str) ++ L))).drop (body.length + 1) =
      List.replicate g ([] : Str) ++ L := by
    rw [show body.length + 1 = (body ++ [indStr ind ++ fenceMarker]).length by
      simp]
    rw [show body ++ ((indStr ind ++ fenceMarker) ::
        (List.replicate g ([] : Str) ++ L)) =
      (body ++ [indStr ind ++ fenceMarker]) ++
        (List.replicate g ([] : Str) ++ L) by simp]
    exact List.drop_left _ _
  rw [hdrop, parseWhitespaceLines_stream g L hL]
  simp [blockCell, codeCell]

/-- `parseMarkdownParagraph` over a well-formed prose block followed
by a blank run and a stream at whose head the paragraph stops. -/
theorem parseMarkdownParagraph_stream (lw : Str) (body : List Str) (g : Nat)
    (L : List Str)
    (hbody : ∀ l ∈ body, proseLineOk l = true)
    (hL : headOk L)
    (hstop : ∀ l0, (List.replicate g ([] : Str) ++ L).head? = some l0 →
      (!l0.isEmpty && !isCodeBlockStart l0) = false) :
    parseMarkdownParagraph lw (body ++ List.replicate g [] ++ L) =
      (mdCell lw (trailOf g L.isEmpty) (joinNL body), L) := by
  have hassoc : body ++ List.replicate g ([] : Str) ++ L =
      body ++ (List.replicate g ([] : Str) ++ L) := by
    simp [List.append_assoc]
  unfold parseMarkdownParagraph
  rw [hassoc]
  have hpre : (body ++ (List.replicate g ([] : Str) ++ L)).takeWhile
      (fun l => !l.isEmpty && !isCodeBlockStart l) = body := by
    rw [takeWhile_append_all _ body _ (by
      intro a ha
      have h := (proseLineOk_iff a).mp (hbody a ha)
      simp [h.1, h.2.1])]
    cases hgl : List.replicate g ([] : Str) ++ L with
    | nil => simp
    | cons l0 t =>
      have h0 := hstop l0 (by rw [hgl]; rfl)
      rw [List.takeWhile_cons, h0]
      simp
  rw [hpre]
  dsimp only
  have hdrop : (body ++ (List.replicate g ([] : Str) ++ L)).drop body.length =
      List.replicate g ([] : Str) ++ L := List.drop_left _ _
  rw [hdrop, parseWhitespaceLines_stream g L hL]
  simp [mdCell]

/-- One loop iteration (with a given leading-whitespace string)
followed by the remaining iterations. -/
def parseLoopAt (lw : Str) : List Str → List RawNotebookCell
  | [] => []
  | line :: tail => parseBlockAnd lw line tail

theorem parseLoop_eq_parseLoopAt (lines : List Str) :
    parseLoop lines = parseLoopAt [] lines := by
  cases lines with
  | nil => rfl
  | cons line tail => exact parseLoop_cons line tail

theorem parseCodeBlockStart_none_of_not_start (l : Str)
    (h : isCodeBlockStart l = false) : parseCodeBlockStart l = none := by
  cases h' : parseCodeBlockStart l with
  | none => rfl
  | some r => rw [isCodeBlockStart, h'] at h; simp at h

theorem isCodeBlockStart_open (ind : Option Str) (tag : Str)
    (hind : indOk ind = true)
    (htag : tag.all (fun c => !jsWhitespace c) = true) :
    isCodeBlockStart (indStr ind ++ fenceMarker ++ tag) = true := by
  rw [isCodeBlockStart, parseCodeBlockStart_open ind tag hind htag]
  rfl

/-- The non-first loop iterations over the lines of a well-formed
block sequence produce exactly the expected cells. -/
theorem parseLoopAt_blocks (bs : List (Block × Nat)) : ∀ lw : Str,
    bs.all (fun bg => bg.1.wf) = true → adjOk bs = true →
    parseLoopAt lw (blocksLines bs) = cellsOf lw bs := by
  induction bs with
  | nil => intro lw _ _; rfl
  | cons bg rest ih =>
    intro lw hall hadj
    obtain ⟨b, g⟩ := bg
    have hb : b.wf = true := by
      simp only [List.all_cons, Bool.and_eq_true] at hall
      exact hall.1
    have hrest : rest.all (fun bg => bg.1.wf) = true := by
      simp only [List.all_cons, Bool.and_eq_true] at hall
      exact hall.2
    have hadjrest : adjOk rest = true := by
      cases rest with
      | nil => rfl
      | cons bg2 rest2 =>
        unfold adjOk at hadj
        simp only [Bool.and_eq_true] at hadj
        exact hadj.2
    have hL : headOk (blocksLines rest) := blocksLines_headOk rest hrest
    cases b with
    | prose body =>
      obtain ⟨hbne, hbody'⟩ := (Block.wf_prose_iff body).mp hb
      have hbody : ∀ l ∈ body, proseLineOk l = true := hbody'
      obtain ⟨l1, body', rfl⟩ : ∃ l1 body', body = l1 :: body' := by
        cases body with
        | nil => exact absurd rfl hbne
        | cons x xs => exact ⟨x, xs, rfl⟩
      have hstop : ∀ l0,
          (List.replicate g ([] : Str) ++ blocksLines rest).head? = some l0 →
          (!l0.isEmpty && !isCodeBlockStart l0) = false := by
        intro l0 h0
        cases g with
        | succ g' =>
          rw [List.replicate_succ] at h0
          simp only [List.cons_append, List.head?_cons,
            Option.some.injEq] at h0
          rw [← h0]
          decide
        | zero =>
          simp only [List.replicate, List.nil_append] at h0
          cases rest with
          | nil => simp [blocksLines] at h0
          | cons bg2 rest2 =>
            obtain ⟨b2, g2⟩ := bg2
            have hb2 : b2.wf = true := by
              simp only [List.all_cons, Bool.and_eq_true] at hrest
              exact hrest.1
            cases b2 with
            | prose body2 =>
              unfold adjOk at hadj
              simp only [Bool.and_eq_true] at hadj
              have hpair := hadj.1
              simp [pairOk] at hpair
            | code ind2 tag2 body2 =>
              obtain ⟨hind2, htagOk2, _, _⟩ :=
                (Block.wf_code_iff ind2 tag2 body2).mp hb2
              have htag2 : tag2.all (fun c => !jsWhitespace c) = true := by
                unfold tagOk at htagOk2
                simp only [Bool.and_eq_true] at htagOk2
                exact htagOk2.1
              have hbl2 : blocksLines ((Block.code ind2 tag2 body2, g2) ::
                  rest2) = (indStr ind2 ++ fenceMarker ++ tag2) ::
                    (body2 ++ [indStr ind2 ++ fenceMarker] ++
                      (List.replicate g2 ([] : Str) ++ blocksLines rest2)) := by
                simp [blocksLines, Block.lines]
              rw [hbl2] at h0
              simp only [List.head?_cons, Option.some.injEq] at h0
              rw [← h0, isCodeBlockStart_open ind2 tag2 hind2 htag2]
              simp
      have hlines : blocksLines ((Block.prose (l1 :: body'), g) :: rest) =
          l1 :: (body' ++
            (List.replicate g ([] : Str) ++ blocksLines rest)) := by
        simp [blocksLines, Block.lines]
      rw [hlines]
      show parseBlockAnd lw l1
          (body' ++ (List.replicate g ([] : Str) ++ blocksLines rest)) =
        cellsOf lw ((Block.prose (l1 :: body'), g) :: rest)
      unfold parseBlockAnd
      rw [parseCodeBlockStart_none_of_not_start l1
        ((proseLineOk_iff l1).mp (hbody l1 (by simp))).2.1]
      dsimp only
      have hshape : l1 :: (body' ++
          (List.replicate g ([] : Str) ++ blocksLines rest)) =
          (l1 :: body') ++ List.replicate g ([] : Str) ++ blocksLines rest := by
        simp [List.append_assoc]
      rw [hshape, parseMarkdownParagraph_stream lw (l1 :: body') g
        (blocksLines rest) hbody hL hstop]
      dsimp only
      rw [parseLoop_eq_parseLoopAt (blocksLines rest), ih [] hrest hadjrest]
      cases rest with
      | nil => simp [cellsOf, blocksLines, blockCell]
      | cons bg2 rest2 =>
        have hne2 : blocksLines (bg2 :: rest2) ≠ [] :=
          blocksLines_ne_nil _ (by simp) hrest
        have hie : (blocksLines (bg2 :: rest2)).isEmpty = false := by
          cases hbl : blocksLines (bg2 :: rest2) with
          | nil => exact absurd hbl hne2
          | cons x xs => rfl
        rw [hie]
        simp [cellsOf, blockCell]
    | code ind tag body =>
      obtain ⟨hind, htagOk, hbne, hall2⟩ := (Block.wf_code_iff ind tag body).mp hb
      have htag : tag.all (fun c => !jsWhitespace c) = true := by
        unfold tagOk at htagOk
        simp only [Bool.and_eq_true] at htagOk
        exact htagOk.1
      have hlines : blocksLines ((Block.code ind tag body, g) :: rest) =
          (indStr ind ++ fenceMarker ++ tag) ::
            (body ++ [indStr ind ++ fenceMarker] ++
              List.replicate g ([] : Str) ++ blocksLines rest) := by
        simp [blocksLines, Block.lines, List.append_assoc]
      rw [hlines]
      show parseBlockAnd lw (indStr ind ++ fenceMarker ++ tag)
          (body ++ [indStr ind ++ fenceMarker] ++
            List.replicate g ([] : Str) ++ blocksLines rest) =
        cellsOf lw ((Block.code ind tag body, g) :: rest)
      unfold parseBlockAnd
      rw [parseCodeBlockStart_open ind tag hind htag]
      dsimp only
      rw [parseCodeBlock_stream lw ind tag body g (blocksLines rest) hb hL]
      dsimp only
      rw [parseLoop_eq_parseLoopAt (blocksLines rest), ih [] hrest hadjrest]
      cases rest with
      | nil => simp [cellsOf, blocksLines, blockCell]
      | cons bg2 rest2 =>
        have hne2 : blocksLines (bg2 :: rest2) ≠ [] :=
          blocksLines_ne_nil _ (by simp) hrest
        have hie : (blocksLines (bg2 :: rest2)).isEmpty = false := by
          cases hbl : blocksLines (bg2 :: rest2) with
          | nil => exact absurd hbl hne2
          | cons x xs => rfl
        rw [hie]
        simp [cellsOf, blockCell]

theorem blockCell_leading (b : Block) (lw tw : Str) :
    (blockCell b lw tw).leadingWhitespace = lw := by
  cases b <;> rfl

theorem blockCell_trailing (b : Block) (lw tw : Str) :
    (blockCell b lw tw).trailingWhitespace = tw := by
  cases b <;> rfl

theorem between_adapter (c n : RawNotebookCell) :
    getBetweenCellsWhitespace (rawToNotebookCellData c)
        (some (rawToNotebookCellData n)) =
      c.trailingWhitespace ++ n.leadingWhitespace := rfl

theorem between_adapter_last (c : RawNotebookCell) :
    getBetweenCellsWhitespace (rawToNotebookCellData c) none =
      c.trailingWhitespace := rfl

theorem customLeading_adapter (c : RawNotebookCell) :
    customLeading (rawToNotebookCellData c) = some c.leadingWhitespace := rfl

theorem indStr_eq_getD (ind : Option Str) : indStr ind = ind.getD [] := by
  cases ind <;> rfl

theorem map_strip_restore (ind : Option Str) (body : List Str) :
    (∀ l ∈ body, codeLineOk ind l = true) →
    (body.map (stripIndentation ind)).map (fun l => indStr ind ++ l) = body := by
  rw [List.map_map]
  induction body with
  | nil => intro _; rfl
  | cons a body ih =>
    intro hall
    simp only [List.map_cons, Function.comp_apply]
    rw [stripIndentation_restore ind a (hall a (by simp)),
      ih (fun l hl => hall l (by simp [hl]))]

theorem splitLines_code_content (ind : Option Str) (body : List Str)
    (hbne : body ≠ []) (hchars : ∀ l ∈ body, lineCharsOk l = true) :
    splitLines (joinNL (body.map (stripIndentation ind))) =
      body.map (stripIndentation ind) := by
  apply splitLines_joinNL
  · simp [hbne]
  · intro l hl
    rw [List.mem_map] at hl
    obtain ⟨x, hx, rfl⟩ := hl
    exact stripIndentation_charsOk ind x (hchars x hx)

/-- Serializing the cell of a well-formed block reproduces exactly the
block's document lines. -/
theorem writeCell_blockCell (b : Block) (lw tw : Str) (hwf : b.wf = true) :
    writeCell (rawToNotebookCellData (blockCell b lw tw)) = joinNL b.lines := by
  cases b with
  | prose body => rfl
  | code ind tag body =>
    obtain ⟨hind, htagOk, hbne, hall⟩ := (Block.wf_code_iff ind tag body).mp hwf
    have htenc : encodeTag (decodeTag tag) = tag := by
      unfold tagOk at htagOk
      simp only [Bool.and_eq_true] at htagOk
      exact eq_of_beq htagOk.2
    have hchars : ∀ l ∈ body, lineCharsOk l = true :=
      fun l hl => (codeLineOk_parts ind l (hall l hl)).2
    have hw : writeCell (rawToNotebookCellData
        (blockCell (Block.code ind tag body) lw tw)) =
        ind.getD [] ++ fenceMarker ++ encodeTag (decodeTag tag) ++ ['\n'] ++
          joinNL ((splitLines (joinNL (body.map (stripIndentation ind)))).map
            (fun l => ind.getD [] ++ l)) ++ ['\n'] ++ ind.getD [] ++
          fenceMarker := rfl
    rw [hw, ← indStr_eq_getD, htenc,
      splitLines_code_content ind body hbne hchars,
      map_strip_restore ind body hall]
    have hcc : joinNL ((indStr ind ++ fenceMarker ++ tag) ::
        (body ++ [indStr ind ++ fenceMarker])) =
        (indStr ind ++ fenceMarker ++ tag) ++
          '\n' :: joinNL (body ++ [indStr ind ++ fenceMarker]) := by
      cases hb : body ++ [indStr ind ++ fenceMarker] with
      | nil => simp at hb
      | cons x xs => rfl
    have hbc : joinNL (body ++ [indStr ind ++ fenceMarker]) =
        joinNL body ++ '\n' :: (indStr ind ++ fenceMarker) :=
      joinNL_append body [indStr ind ++ fenceMarker] hbne (by simp)
    show _ = joinNL ((indStr ind ++ fenceMarker ++ tag) ::
      (body ++ [indStr ind ++ fenceMarker]))
    rw [hcc, hbc]
    simp [List.append_assoc]

theorem joinNL_blanks_append (g : Nat) (L : List Str) (hL : L ≠ []) :
    joinNL (List.replicate g ([] : Str) ++ L) =
      List.replicate g '\n' ++ joinNL L := by
  induction g with
  | zero => simp
  | succ g ih =>
    have h1 : List.replicate (g + 1) ([] : Str) ++ L =
        [] :: (List.replicate g ([] : Str) ++ L) := by
      rw [List.replicate_succ]
      rfl
    rw [h1]
    have h2 : joinNL ([] :: (List.replicate g ([] : Str) ++ L)) =
        [] ++ '\n' :: joinNL (List.replicate g ([] : Str) ++ L) := by
      cases hc : List.replicate g ([] : Str) ++ L with
      | nil => exact absurd (List.append_eq_nil.mp hc).2 hL
      | cons x xs => rfl
    rw [h2, ih]
    simp [List.replicate_succ]

theorem joinNL_block_last (A : List Str) (g : Nat) (hA : A ≠ []) :
    joinNL (A ++ List.replicate g ([] : Str) ++ []) =
      joinNL A ++ trailOf g true := by
  rw [List.append_nil]
  rw [joinNL_append_blanks A g hA]
  rfl

theorem joinNL_block_mid (A : List Str) (g : Nat) (L : List Str)
    (hA : A ≠ []) (hL : L ≠ []) :
    joinNL (A ++ List.replicate g ([] : Str) ++ L) =
      joinNL A ++ (trailOf g false ++ joinNL L) := by
  rw [List.append_assoc]
  have hgl : List.replicate g ([] : Str) ++ L ≠ [] := by
    intro hc
    exact absurd (List.append_eq_nil.mp hc).2 hL
  rw [joinNL_append A _ hA hgl, joinNL_blanks_append g L hL]
  have ht : trailOf g false = '\n' :: List.replicate g '\n' := by
    unfold trailOf
    simp [List.replicate_succ]
  rw [ht]
  simp

theorem cellsOf_shape (lw : Str) (b2 : Block) (g2 : Nat)
    (rest2 : List (Block × Nat)) :
    ∃ (tw : Str) (cs : List RawNotebookCell),
      cellsOf lw ((b2, g2) :: rest2) = blockCell b2 lw tw :: cs := by
  cases rest2 with
  | nil => exact ⟨trailOf g2 true, [], rfl⟩
  | cons bg3 rest3 => exact ⟨trailOf g2 false, _, rfl⟩

/-- Serializing the parsed cells of a well-formed block sequence (each
cell carried through the host metadata adapter) reproduces exactly the
document text: leading whitespace, block lines, and inter-block blank
runs. -/
theorem writeCells_cellsOf (bs : List (Block × Nat)) : ∀ lw : Str,
    bs.all (fun bg => bg.1.wf) = true → bs ≠ [] →
    writeCellsToMarkdown ((cellsOf lw bs).map rawToNotebookCellData) =
      lw ++ joinNL (blocksLines bs) := by
  induction bs with
  | nil => intro lw _ hne; exact absurd rfl hne
  | cons bg rest ih =>
    intro lw hall _
    obtain ⟨b, g⟩ := bg
    have hb : b.wf = true := by
      simp only [List.all_cons, Bool.and_eq_true] at hall
      exact hall.1
    have hrest : rest.all (fun bg => bg.1.wf) = true := by
      simp only [List.all_cons, Bool.and_eq_true] at hall
      exact hall.2
    have hblne : b.lines ≠ [] := Block.lines_ne_nil b hb
    cases rest with
    | nil =>
      show writeCellsToMarkdown
          [rawToNotebookCellData (blockCell b lw (trailOf g true))] =
        lw ++ joinNL (blocksLines [(b, g)])
      unfold writeCellsToMarkdown writeCellsLoop
      dsimp only
      rw [customLeading_adapter, between_adapter_last,
        writeCell_blockCell b lw (trailOf g true) hb, blockCell_trailing]
      have hbl : blocksLines [(b, g)] =
          b.lines ++ List.replicate g ([] : Str) ++ [] := rfl
      rw [hbl, joinNL_block_last b.lines g hblne]
      simp [blockCell_leading]
    | cons bg2 rest2 =>
      obtain ⟨b2, g2⟩ := bg2
      obtain ⟨tw2, cs2, hshape⟩ := cellsOf_shape [] b2 g2 rest2
      have hb2 : b2.wf = true := by
        simp only [List.all_cons, Bool.and_eq_true] at hrest
        exact hrest.1
      have hLne : blocksLines ((b2, g2) :: rest2) ≠ [] :=
        blocksLines_ne_nil _ (by simp) hrest
      have hih := ih [] hrest (by simp)
      rw [hshape] at hih
      have hih2 : writeCellsLoop
          (rawToNotebookCellData (blockCell b2 [] tw2))
          (cs2.map rawToNotebookCellData) =
          joinNL (blocksLines ((b2, g2) :: rest2)) := by
        unfold writeCellsToMarkdown at hih
        simp only [List.map_cons] at hih
        rw [customLeading_adapter, blockCell_leading] at hih
        simpa using hih
      show writeCellsToMarkdown ((blockCell b lw (trailOf g false) ::
          cellsOf [] ((b2, g2) :: rest2)).map rawToNotebookCellData) =
        lw ++ joinNL (blocksLines ((b, g) :: (b2, g2) :: rest2))
      rw [hshape]
      unfold writeCellsToMarkdown
      simp only [List.map_cons]
      rw [customLeading_adapter, blockCell_leading]
      unfold writeCellsLoop
      rw [between_adapter, blockCell_trailing, blockCell_leading,
        writeCell_blockCell b lw (trailOf g false) hb, hih2]
      have hbl : blocksLines ((b, g) :: (b2, g2) :: rest2) =
          b.lines ++ List.replicate g ([] : Str) ++
            blocksLines ((b2, g2) :: rest2) := rfl
      rw [hbl, joinNL_block_mid b.lines g _ hblne hLne]
      simp [List.append_assoc]

/-- `parseMarkdown` when a leading blank run is followed by a
non-blank first line that is not `---`. -/
theorem parseMarkdown_leading (yamlOk : Str → Bool) (content : Str) (k : Nat)
    (l0 : Str) (tail : List Str)
    (hsplit : splitLines content = List.replicate k ([] : Str) ++ l0 :: tail)
    (hl0 : l0.isEmpty = false) (hne : (l0 == str "---") = false) :
    parseMarkdown yamlOk content =
      Except.ok (parseBlockAnd (List.replicate k '\n') l0 tail) := by
  unfold parseMarkdown
  rw [hsplit]
  dsimp only
  rw [parseWhitespaceLines_blanks true k l0 tail hl0]
  simp [hne]

/-- Parsing a well-formed document of the round-trip class yields
exactly the expected cells. -/
theorem parseMarkdown_simpleDoc (yamlOk : Str → Bool) (d : SimpleDoc)
    (hwf : d.wf = true) :
    parseMarkdown yamlOk d.text =
      Except.ok (cellsOf (List.replicate d.leadBlanks '\n') d.blocks) := by
  have hwf' := hwf
  unfold SimpleDoc.wf at hwf'
  simp only [Bool.and_eq_true, Bool.not_eq_true'] at hwf'
  obtain ⟨⟨⟨hbne', hall⟩, hadj⟩, hfirst⟩ := hwf'
  have hbne : d.blocks ≠ [] := by
    intro hc
    rw [hc] at hbne'
    simp at hbne'
  have hsplit : splitLines d.text =
      List.replicate d.leadBlanks ([] : Str) ++ blocksLines d.blocks := by
    rw [splitLines_SimpleDoc d hwf]
    rfl
  have hLne : blocksLines d.blocks ≠ [] := blocksLines_ne_nil _ hbne hall
  obtain ⟨line, tail, hbl⟩ : ∃ line tail,
      blocksLines d.blocks = line :: tail := by
    cases hb : blocksLines d.blocks with
    | nil => exact absurd hb hLne
    | cons x xs => exact ⟨x, xs, rfl⟩
  have hl0 : line.isEmpty = false :=
    blocksLines_headOk d.blocks hall line (by rw [hbl]; rfl)
  have hne : (line == str "---") = false := by
    cases hbeq : line == str "---" with
    | false => rfl
    | true =>
      exfalso
      have hlineeq : line = str "---" := eq_of_beq hbeq
      cases hblocks : d.blocks with
      | nil => exact hbne hblocks
      | cons bg rest =>
        obtain ⟨b, g⟩ := bg
        have hb : b.wf = true := by
          rw [hblocks] at hall
          simp only [List.all_cons, Bool.and_eq_true] at hall
          exact hall.1
        cases b with
        | prose body =>
          obtain ⟨hbne2, _⟩ := (Block.wf_prose_iff body).mp hb
          obtain ⟨l1, body', rfl⟩ : ∃ l1 body', body = l1 :: body' := by
            cases body with
            | nil => exact absurd rfl hbne2
            | cons x xs => exact ⟨x, xs, rfl⟩
          have hl1 : line = l1 := by
            rw [hblocks] at hbl
            have hx : blocksLines ((Block.prose (l1 :: body'), g) :: rest) =
                l1 :: (body' ++ (List.replicate g ([] : Str) ++
                  blocksLines rest)) := by
              simp [blocksLines, Block.lines]
            rw [hx] at hbl
            exact (List.cons.injEq _ _ _ _ ▸ hbl).1.symm
          rw [hblocks] at hfirst
          unfold firstOk at hfirst
          rw [← hl1, hlineeq] at hfirst
          simp at hfirst
        | code ind tag body =>
          obtain ⟨hind, htagOk, _, _⟩ := (Block.wf_code_iff ind tag body).mp hb
          have htag : tag.all (fun c => !jsWhitespace c) = true := by
            unfold tagOk at htagOk
            simp only [Bool.and_eq_true] at htagOk
            exact htagOk.1
          have hopen : line = indStr ind ++ fenceMarker ++ tag := by
            rw [hblocks] at hbl
            have hx : blocksLines ((Block.code ind tag body, g) :: rest) =
                (indStr ind ++ fenceMarker ++ tag) ::
                  (body ++ [indStr ind ++ fenceMarker] ++
                    (List.replicate g ([] : Str) ++ blocksLines rest)) := by
              simp [blocksLines, Block.lines]
            rw [hx] at hbl
            exact (List.cons.injEq _ _ _ _ ▸ hbl).1.symm
          have h1 : parseCodeBlockStart line = some ⟨ind, tag⟩ := by
            rw [hopen]
            exact parseCodeBlockStart_open ind tag hind htag
          rw [hlineeq] at h1
          have hnone : parseCodeBlockStart (str "---") = none := by decide
          rw [hnone] at h1
          exact absurd h1 (by simp)
  rw [parseMarkdown_leading yamlOk d.text d.leadBlanks line tail
    (by rw [hsplit, hbl]) hl0 hne]
  congr 1
  have hPL : parseBlockAnd (List.replicate d.leadBlanks '\n') line tail =
      parseLoopAt (List.replicate d.leadBlanks '\n') (blocksLines d.blocks) := by
    rw [hbl]
    rfl
  rw [hPL, parseLoopAt_blocks d.blocks _ hall hadj]

/-- A sample document of the round-trip class, used by the C1
witness. -/
def sampleDoc : SimpleDoc :=
  ⟨1, [(Block.prose [str "# h", str "x"], 1),
       (Block.code (some (str "    ")) (str "js") [str "    a"], 0),
       (Block.prose [str "tail"], 2)]⟩

/-- C1 counterexample: the claim says every text produced by
`writeCellsToMarkdown` round-trips byte-for-byte.  The text
`"```py\nx\n```\n"` IS produced by `writeCellsToMarkdown` (from a
fresh Code cell with language id `py`), but parsing decodes `py` to
`python` and re-serializing encodes `python` to `py3` (see C3), so the
round trip yields `"```py3\nx\n```\n" ≠ T`. -/
theorem claim_C1_counterexample :
    writeCellsToMarkdown
        [freshCell NotebookCellKind.Code (str "py") (str "x")] =
      str "```py\nx\n```\n" ∧
    (parseMarkdown (fun _ => false) (writeCellsToMarkdown
        [freshCell NotebookCellKind.Code (str "py") (str "x")])).map
      (fun cells => writeCellsToMarkdown (cells.map rawToNotebookCellData)) =
      Except.ok (str "```py3\nx\n```\n") ∧
    ¬ (str "```py3\nx\n```\n") = str "```py\nx\n```\n" := by
  refine ⟨by decide, by decide, by decide⟩

/-- C1 (amended): byte-exact round-trip holds on the fence-stable
well-formed class: any LF-only document made of a leading blank run
followed by a non-empty sequence of blocks separated by blank-line
runs, where each block is either a prose paragraph (non-blank lines
containing no triple-backtick anywhere, the very first document line
not `---`) or an explicitly closed fenced code block (indentation
empty, four spaces or one tab, carried by every body line; a
whitespace-free tag whose decode/encode composite is the tag itself —
this excludes `py`, `py2`, `bat`-style aliases of canonical names, and
the last-line and `undefined`-prefix quirks; at least one body line;
no body line closing the fence), and a prose block immediately
followed by another prose block has at least one blank line between
them.  On this class `parseMarkdown` produces exactly the expected
cells and serializing them through the host metadata adapter
reproduces the document text byte-for-byte. -/
theorem claim_C1_roundtrip (yamlOk : Str → Bool) (d : SimpleDoc)
    (hwf : d.wf = true) :
    parseMarkdown yamlOk d.text =
      Except.ok (cellsOf (List.replicate d.leadBlanks '\n') d.blocks) ∧
    writeCellsToMarkdown ((cellsOf (List.replicate d.leadBlanks '\n')
        d.blocks).map rawToNotebookCellData) = d.text := by
  have hwf' := hwf
  unfold SimpleDoc.wf at hwf'
  simp only [Bool.and_eq_true, Bool.not_eq_true'] at hwf'
  obtain ⟨⟨⟨hbne', hall⟩, _⟩, _⟩ := hwf'
  have hbne : d.blocks ≠ [] := by
    intro hc
    rw [hc] at hbne'
    simp at hbne'
  refine ⟨parseMarkdown_simpleDoc yamlOk d hwf, ?_⟩
  rw [writeCells_cellsOf d.blocks _ hall hbne]
  unfold SimpleDoc.text SimpleDoc.lines
  rw [joinNL_blanks_append d.leadBlanks _
    (blocksLines_ne_nil d.blocks hbne hall)]

/-- C1 witness: the round trip evaluated on a concrete document with a
blank first line, a two-line paragraph, an indented `js` code block
immediately followed by prose, and trailing blank lines. -/
theorem claim_C1_witness :
    parseMarkdown (fun _ => false) sampleDoc.text =
      Except.ok (cellsOf (List.replicate sampleDoc.leadBlanks '\n')
        sampleDoc.blocks) ∧
    writeCellsToMarkdown ((cellsOf (List.replicate sampleDoc.leadBlanks '\n')
        sampleDoc.blocks).map rawToNotebookCellData) = sampleDoc.text :=
  claim_C1_roundtrip (fun _ => false) sampleDoc (by decide)

/-- C2: the claim says `parseMarkdown` is total and never raises.  The
code is not: on the empty document and on any document consisting only
of blank lines, the first loop iteration consumes every line as
leading whitespace, leaving `i = lines.length`, and then
`parseCodeBlockStart(lines[i])` calls `.match` on `undefined`, raising
a `TypeError` (modelled as `.error ()`).  This theorem evaluates the
embedded code at two such failing inputs. -/
theorem claim_C2_totality :
    parseMarkdown (fun _ => false) (str "") = Except.error () ∧
    parseMarkdown (fun _ => true) (str "\n") = Except.error () := by
  constructor
  · decide
  · decide

/-- C3 counterexample: the claim says every Code cell with language
`python` serializes with the tag `py`.  `LANG_ABBREVS` is a JS `Map`
built from pairs with the duplicate key `python` (`py`, `py2`, `py3`
in insertion order); `Map.set` overwrites, so `python` encodes to
`py3`, not `py`. -/
theorem claim_C3_counterexample :
    encodeTag (str "python") = str "py3" ∧
    writeCellsToMarkdown
        [freshCell NotebookCellKind.Code (str "python") (str "let x = 1;")] =
      str "```py3\nlet x = 1;\n```\n" ∧
    ¬ writeCellsToMarkdown
        [freshCell NotebookCellKind.Code (str "python") (str "let x = 1;")] =
      str "```py\nlet x = 1;\n```\n" := by
  refine ⟨by decide, by decide, by decide⟩

/-- C3 (amended): parsing a `js`-tagged fence block yields one Code
cell with language `javascript` and content `let x = 1;`, and
serializing that cell re-encodes the tag `js`; `py`, `py2` and `py3`
all decode to `python`, but `python` encodes back to `py3` (the last
alias inserted into the map), not `py`; tags and ids absent from the
tables pass through unchanged in both directions. -/
theorem claim_C3_language_alias :
    parseMarkdown (fun _ => false) (str "```js\nlet x = 1;\n```") =
      Except.ok [codeCell none [] [] (str "javascript") (str "let x = 1;")] ∧
    writeCellsToMarkdown [rawToNotebookCellData
        (codeCell none [] [] (str "javascript") (str "let x = 1;"))] =
      str "```js\nlet x = 1;\n```" ∧
    decodeTag (str "py") = str "python" ∧
    decodeTag (str "py2") = str "python" ∧
    decodeTag (str "py3") = str "python" ∧
    encodeTag (str "python") = str "py3" ∧
    (∀ t : Str, jsMapGet LANG_IDS t = none → decodeTag t = t) ∧
    (∀ s : Str, jsMapGet LANG_ABBREVS s = none → encodeTag s = s) := by
  refine ⟨by decide, by decide, by decide, by decide, by decide, by decide,
    ?_, ?_⟩
  · intro t h
    rw [decodeTag, h]
    rfl
  · intro s h
    rw [encodeTag, h]
    rfl

/-- C3 witness for the pass-through clauses. -/
theorem claim_C3_witness :
    decodeTag (str "rust") = str "rust" ∧
    encodeTag (str "rust") = str "rust" :=
  ⟨claim_C3_language_alias.2.2.2.2.2.2.1 (str "rust") (by decide),
   claim_C3_language_alias.2.2.2.2.2.2.2 (str "rust") (by decide)⟩

/-- C4 counterexample: the claim says an unterminated code block keeps
every line after the opening fence.  On `"```" + "\n" + "abc"` the
implicit close computes `lines.slice(startSourceIdx, i - 1)` with
`i = lines.length`, which drops the final line: the cell's content is
empty, not `abc`. -/
theorem claim_C4_counterexample :
    parseMarkdown (fun _ => false) (str "```\nabc") =
      Except.ok [codeCell none [] [] [] []] ∧
    ¬ ([] : Str) = str "abc" := by
  refine ⟨by decide, by decide⟩

/-- C4 (amended): when a fence opens a code block and no closing-fence
line occurs before end-of-document, `parseMarkdown` does not fail; it
emits a single Code cell whose content consists of the lines after the
opening fence up to but EXCLUDING the final line of the document, each
with the captured indentation prefix stripped (a literal `undefined`
prefix when the fence was unindented) — so when the document ends with
a newline no visible line is lost, and otherwise the last line is. -/
theorem claim_C4_implicit_close (yamlOk : Str → Bool) (content l0 : Str)
    (tail : List Str) (cbs : ICodeBlockStart)
    (hsplit : splitLines content = l0 :: tail)
    (hcbs : parseCodeBlockStart l0 = some cbs)
    (hnoclose : ∀ l ∈ tail, isCodeBlockEndLine l = false) :
    parseMarkdown yamlOk content =
      Except.ok [codeCell cbs.indentation [] [] (decodeTag cbs.langId)
        (joinNL ((tail.dropLast).map (stripIndentation cbs.indentation)))] := by
  have hl0 : l0.isEmpty = false := parseCodeBlockStart_ne_nil l0 cbs hcbs
  have hne : (l0 == str "---") = false := by
    cases hbe : l0 == str "---"
    · rfl
    · have hl : l0 = str "---" := eq_of_beq hbe
      have hnone : parseCodeBlockStart (str "---") = none := by decide
      rw [hl, hnone] at hcbs
      exact absurd hcbs (by simp)
  have hpre : tail.takeWhile (fun l => !isCodeBlockEndLine l) = tail :=
    takeWhile_all _ tail (by intro a ha; rw [hnoclose a ha]; rfl)
  rw [parseMarkdown_no_frontmatter yamlOk content l0 tail hsplit hl0 hne]
  unfold parseBlockAnd
  rw [hcbs]
  dsimp only
  unfold parseCodeBlock
  rw [hpre]
  dsimp only
  rw [if_pos rfl, if_pos rfl]
  rw [show parseWhitespaceLines false [] = ([], []) from rfl]
  rw [parseLoop_nil]
  simp [codeCell]

/-- C4 witness. -/
theorem claim_C4_witness :
    parseMarkdown (fun _ => false) (str "```js\nfoo") =
      Except.ok [codeCell none [] [] (str "javascript") []] := by
  have h := claim_C4_implicit_close (fun _ => false) (str "```js\nfoo")
    (str "```js") [str "foo"] ⟨none, str "js"⟩ (by decide) (by decide)
    (by decide)
  exact h.trans (by decide)

/-- C5 counterexample: the claim says a document starting with `---`
and without a closing `---` parses as a SINGLE Prose cell.  On
`"---" + "\n\n" + "x"` the failed front-matter attempt rewinds
exactly, but the blank line then ends the first paragraph, giving TWO
prose cells. -/
theorem claim_C5_counterexample :
    parseMarkdown (fun _ => false) (str "---\n\nx") =
      Except.ok [mdCell [] (str "\n\n") (str "---"), mdCell [] [] (str "x")] ∧
    (parseMarkdown (fun _ => false) (str "---\n\nx")).map List.length =
      Except.ok 2 := by
  refine ⟨by decide, by decide⟩

/-- C5 (amended): when the document's first line is exactly `---` and
either no closing `---` follows or the interior fails YAML parsing,
`parseMarkdown` abandons the attempt with an exact rewind — the result
is precisely the normal prose/code parse of the same lines from the
first `---` on; in particular, when the remaining lines contain no
blank line and no code-fence line, the whole document is one Prose
cell starting at the `---` line. -/
theorem claim_C5_frontmatter_fallback (yamlOk : Str → Bool) (content : Str)
    (tail : List Str)
    (hsplit : splitLines content = (str "---") :: tail)
    (hfail : (tail.takeWhile (fun l => !(l == str "---"))).length = tail.length ∨
      yamlOk (joinNL (tail.takeWhile (fun l => !(l == str "---")))) = false) :
    parseMarkdown yamlOk content =
      Except.ok (parseBlockAnd [] (str "---") tail) ∧
    ((∀ l ∈ tail, (!l.isEmpty && !isCodeBlockStart l) = true) →
      parseMarkdown yamlOk content =
        Except.ok [mdCell [] [] (joinNL ((str "---") :: tail))]) := by
  have hnone : parseEmbeddedYAML yamlOk [] tail = none := by
    unfold parseEmbeddedYAML
    dsimp only
    by_cases hc : (tail.takeWhile (fun l => !(l == str "---"))).length =
        tail.length
    · rw [if_pos hc]
    · rw [if_neg hc]
      cases hfail with
      | inl h => exact absurd h hc
      | inr h => rw [h]; rfl
  have hmain : parseMarkdown yamlOk content =
      Except.ok (parseBlockAnd [] (str "---") tail) := by
    rw [parseMarkdown_dashes yamlOk content tail hsplit, hnone]
  refine ⟨hmain, ?_⟩
  intro hall
  rw [hmain]
  unfold parseBlockAnd
  rw [show parseCodeBlockStart (str "---") = none from by decide]
  dsimp only
  unfold parseMarkdownParagraph
  have hbody : ((str "---") :: tail).takeWhile
      (fun l => !l.isEmpty && !isCodeBlockStart l) = (str "---") :: tail := by
    rw [List.takeWhile_cons]
    rw [show ((!(str "---" : Str).isEmpty && !isCodeBlockStart (str "---")) =
      true) from by decide]
    rw [takeWhile_all _ tail hall]
    simp
  rw [hbody]
  dsimp only
  rw [show ((str "---") :: tail).drop ((str "---") :: tail).length = [] from
    List.drop_length _]
  rw [show parseWhitespaceLines false [] = ([], []) from rfl]
  rw [parseLoop_nil]
  rfl

/-- C5 witness. -/
theorem claim_C5_witness :
    parseMarkdown (fun _ => false) (str "---\na: b") =
      Except.ok [mdCell [] [] (str "---\na: b")] := by
  have h := (claim_C5_frontmatter_fallback (fun _ => false) (str "---\na: b")
    [str "a: b"] (by decide) (Or.inl (by decide))).2 (by decide)
  exact h.trans (by decide)

/-- C6: `parseMarkdown "# hello"` yields exactly one Prose cell with
content `# hello` and empty leading/trailing whitespace;
`parseMarkdown "\n\n# hello\n"` yields one Prose cell with leading
whitespace of two newlines and trailing whitespace of one newline; and
in every successful parse, every cell after the first has empty
`leadingWhitespace` (interior blank runs are attributed entirely to
the preceding cell's `trailingWhitespace`). -/
theorem claim_C6_whitespace_capture :
    parseMarkdown (fun _ => false) (str "# hello") =
      Except.ok [mdCell [] [] (str "# hello")] ∧
    parseMarkdown (fun _ => false) (str "\n\n# hello\n") =
      Except.ok [mdCell (str "\n\n") (str "\n") (str "# hello")] ∧
    (∀ (yamlOk : Str → Bool) (content : Str) (cells : List RawNotebookCell),
      parseMarkdown yamlOk content = Except.ok cells →
      ∀ cell ∈ cells.tail, cell.leadingWhitespace = []) := by
  refine ⟨by decide, by decide, ?_⟩
  intro yamlOk content cells h cell hmem
  obtain ⟨c0, rest, hc⟩ := parseMarkdown_ok_tail yamlOk content cells h
  rw [hc] at hmem
  exact parseLoopF_leading rest.length rest cell hmem

/-- C6 witness. -/
theorem claim_C6_witness :
    ∀ cell ∈ ([mdCell [] (str "\n\n") (str "---"),
        mdCell [] [] (str "x")] : List RawNotebookCell).tail,
      cell.leadingWhitespace = [] :=
  claim_C6_whitespace_capture.2.2 (fun _ => false) (str "---\n\nx") _
    (by decide)

/-- C7: the serializer's between-cells merge rule: two present strings
concatenate literally; when either side is missing and the present
material is empty or a single newline the canonical `\n\n` separator
is substituted, uniformly in which side is missing; after the final
cell a single `\n` is appended exactly when no trailing whitespace was
captured; and the concrete insertion example: parse `# hello`, append
fresh `foo` and `bar` cells without metadata, serialize, and obtain
`# hello\n\nfoo\n\nbar\n`. -/
theorem claim_C7_serializer_merge :
    (∀ (c n : NotebookCell) (t l : Str), customTrailing c = some t →
      customLeading n = some l →
      getBetweenCellsWhitespace c (some n) = t ++ l) ∧
    (∀ c n : NotebookCell, customTrailing c = none → customLeading n = none →
      getBetweenCellsWhitespace c (some n) = str "\n\n") ∧
    (∀ (c n : NotebookCell) (l : Str), customTrailing c = none →
      customLeading n = some l →
      getBetweenCellsWhitespace c (some n) =
        (if l.isEmpty || l == str "\n" then str "\n\n" else l)) ∧
    (∀ (c n : NotebookCell) (t : Str), customTrailing c = some t →
      customLeading n = none →
      getBetweenCellsWhitespace c (some n) =
        (if t.isEmpty || t == str "\n" then str "\n\n" else t)) ∧
    (∀ c : NotebookCell, customTrailing c = none →
      getBetweenCellsWhitespace c none = str "\n") ∧
    (∀ (c : NotebookCell) (t : Str), customTrailing c = some t →
      getBetweenCellsWhitespace c none = t) ∧
    (parseMarkdown (fun _ => false) (str "# hello")).map (fun cells =>
        writeCellsToMarkdown (cells.map rawToNotebookCellData ++
          [freshCell NotebookCellKind.Markdown (str "markdown") (str "foo"),
           freshCell NotebookCellKind.Markdown (str "markdown") (str "bar")])) =
      Except.ok (str "# hello\n\nfoo\n\nbar\n") := by
  refine ⟨?_, ?_, ?_, ?_, ?_, ?_, by decide⟩
  · intro c n t l h1 h2
    simp [getBetweenCellsWhitespace, h1, h2]
  · intro c n h1 h2
    simp [getBetweenCellsWhitespace, h1, h2]
  · intro c n l h1 h2
    simp [getBetweenCellsWhitespace, h1, h2]
  · intro c n t h1 h2
    simp [getBetweenCellsWhitespace, h1, h2]
  · intro c h1
    simp [getBetweenCellsWhitespace, h1]
  · intro c t h1
    simp [getBetweenCellsWhitespace, h1]

/-- C7 witness. -/
theorem claim_C7_witness :
    getBetweenCellsWhitespace
        (rawToNotebookCellData (mdCell [] (str "\n\n\n") (str "a")))
        (some (freshCell NotebookCellKind.Markdown (str "markdown")
          (str "b"))) = str "\n\n\n" ∧
    getBetweenCellsWhitespace
        (freshCell NotebookCellKind.Markdown (str "markdown") (str "a"))
        (some (freshCell NotebookCellKind.Markdown (str "markdown")
          (str "b"))) = str "\n\n" ∧
    getBetweenCellsWhitespace
        (freshCell NotebookCellKind.Markdown (str "markdown") (str "a"))
        none = str "\n" := by
  refine ⟨?_, ?_, ?_⟩
  · have h := claim_C7_serializer_merge.2.2.2.1
      (rawToNotebookCellData (mdCell [] (str "\n\n\n") (str "a")))
      (freshCell NotebookCellKind.Markdown (str "markdown") (str "b"))
      (str "\n\n\n") rfl rfl
    exact h.trans (by decide)
  · exact claim_C7_serializer_merge.2.1
      (freshCell NotebookCellKind.Markdown (str "markdown") (str "a"))
      (freshCell NotebookCellKind.Markdown (str "markdown") (str "b")) rfl rfl
  · exact claim_C7_serializer_merge.2.2.2.2.1
      (freshCell NotebookCellKind.Markdown (str "markdown") (str "a")) rfl

/-- C8 counterexample: the claim says a line with text before the
backticks does not open a code block.  The regex
`/(    |\t)?```(\S*)/` is unanchored, so `x```js` matches (at offset
1) and a whole document whose first line is `hello ```js` parses as a
code block, not prose. -/
theorem claim_C8_counterexample :
    parseCodeBlockStart (str "x```js") = some ⟨none, str "js"⟩ ∧
    parseMarkdown (fun _ => false) (str "hello ```js\ncode\n```") =
      Except.ok [codeCell none [] [] (str "javascript") (str "code")] := by
  refine ⟨by decide, by decide⟩

/-- C8 (amended): a line is classified as a code-block start iff it
CONTAINS the triple-backtick marker anywhere (the regex is
unanchored); at the first matching offset an immediately preceding run
of exactly four spaces or one tab is captured as indentation and the
following run of non-whitespace characters as the language tag. -/
theorem claim_C8_code_block_start :
    (∀ l : Str, isCodeBlockStart l = true ↔
      ∃ A B : Str, l = A ++ fenceMarker ++ B) ∧
    parseCodeBlockStart (str "    ```py") =
      some ⟨some (str "    "), str "py"⟩ ∧
    parseCodeBlockStart (str "\t```") = some ⟨some (str "\t"), []⟩ ∧
    parseCodeBlockStart (str "x ```ts") = some ⟨none, str "ts"⟩ ∧
    parseCodeBlockStart (str "ab") = none := by
  refine ⟨?_, by decide, by decide, by decide, by decide⟩
  intro l
  constructor
  · exact exists_fence_of_isCodeBlockStart l
  · intro hex
    obtain ⟨A, B, hAB⟩ := hex
    rw [hAB]
    exact isCodeBlockStart_of_fence A B

/-- C8 witness. -/
theorem claim_C8_witness :
    ∃ A B : Str, str "x```js" = A ++ fenceMarker ++ B :=
  (claim_C8_code_block_start.1 (str "x```js")).mp (by decide)

/-- C9 counterexample: the claim says a FrontMatter cell is produced
only when the document's FIRST line is exactly `---`.  The `---` check
runs after the leading blank run is consumed, so a document whose
first line is blank and whose second line is `---` still produces a
front-matter cell (here with a YAML oracle accepting `a: 1`, as
js-yaml does). -/
theorem claim_C9_counterexample :
    parseMarkdown (fun _ => true) (str "\n---\na: 1\n---") =
      Except.ok [yamlCell (str "\n") [] (str "a: 1")] ∧
    (splitLines (str "\n---\na: 1\n---")).head? = some [] ∧
    ¬ ([] : Str) = str "---" := by
  refine ⟨by decide, by decide, by decide⟩

/-- C9 (amended): in every successful parse an embedded-YAML
FrontMatter cell occurs at most once and only at index 0, and it is
produced only when the first line AFTER the leading blank run is
exactly `---`, a closing `---` line is found before end-of-document,
and the YAML oracle accepts the interior text. -/
theorem claim_C9_frontmatter_placement (yamlOk : Str → Bool) (content : Str)
    (cells : List RawNotebookCell)
    (h : parseMarkdown yamlOk content = Except.ok cells) :
    (∀ cell ∈ cells.tail, cell.isEmbeddedYaml = false) ∧
    (∀ cell0 : RawNotebookCell, cells.head? = some cell0 →
      cell0.isEmbeddedYaml = true →
      ((parseWhitespaceLines true (splitLines content)).2).head? =
        some (str "---") ∧
      ((((parseWhitespaceLines true (splitLines content)).2).tail).takeWhile
          (fun l => !(l == str "---"))).length <
        (((parseWhitespaceLines true (splitLines content)).2).tail).length ∧
      yamlOk (joinNL ((((parseWhitespaceLines true
        (splitLines content)).2).tail).takeWhile
          (fun l => !(l == str "---")))) = true) := by
  constructor
  · intro cell hmem
    obtain ⟨c0, rest, hc⟩ := parseMarkdown_ok_tail yamlOk content cells h
    rw [hc] at hmem
    exact parseLoopF_notYaml rest.length rest cell hmem
  · intro cell0 hhead hemb
    unfold parseMarkdown at h
    dsimp only at h
    split at h
    · exact absurd h (by simp)
    · rename_i line tail heq
      split at h
      · rename_i hif
        split at h
        · rename_i cell rest hx
          injection h with h
          have hconds := parseEmbeddedYAML_some yamlOk
            (parseWhitespaceLines true (splitLines content)).1 tail
            (cell, rest) hx
          have hline : line = str "---" := eq_of_beq hif
          rw [heq, hline]
          exact ⟨rfl, hconds.1, hconds.2.1⟩
        · injection h with h
          obtain ⟨r, hr, hremb, _⟩ := parseBlockAnd_tail_eq
            (parseWhitespaceLines true (splitLines content)).1 line tail
          rw [← h, hr] at hhead
          simp only [List.head?_cons, Option.some.injEq] at hhead
          rw [← hhead, hremb] at hemb
          exact absurd hemb (by simp)
      · injection h with h
        obtain ⟨r, hr, hremb, _⟩ := parseBlockAnd_tail_eq
          (parseWhitespaceLines true (splitLines content)).1 line tail
        rw [← h, hr] at hhead
        simp only [List.head?_cons, Option.some.injEq] at hhead
        rw [← hhead, hremb] at hemb
        exact absurd hemb (by simp)

/-- C9 witness. -/
theorem claim_C9_witness :
    ((parseWhitespaceLines true (splitLines (str "---\na: 1\n---"))).2).head? =
      some (str "---") ∧
    ((((parseWhitespaceLines true
        (splitLines (str "---\na: 1\n---"))).2).tail).takeWhile
        (fun l => !(l == str "---"))).length <
      (((parseWhitespaceLines true
        (splitLines (str "---\na: 1\n---"))).2).tail).length ∧
    (fun _ => true) (joinNL ((((parseWhitespaceLines true
      (splitLines (str "---\na: 1\n---"))).2).tail).takeWhile
        (fun l => !(l == str "---")))) = true :=
  (claim_C9_frontmatter_placement (fun _ => true) (str "---\na: 1\n---")
    [yamlCell [] [] (str "a: 1")] (by decide)).2
    (yamlCell [] [] (str "a: 1")) (by decide) (by decide)

/-- C10: the claim says `parseMarkdown` returns the empty cell list on
the empty string and on blank-only documents.  It does not: those are
exactly the inputs on which the source dereferences `undefined` and
throws (see the spec's §4.1 contract "Total, never fails", which makes
the intent clear and the code a slip).  The serializer half of the
claim is correct: `writeCellsToMarkdown [] = ""`.  This theorem
evaluates the embedded code on every blank-only document and on the
empty cell list. -/
theorem claim_C10_empty_document :
    (∀ (yamlOk : Str → Bool) (content : Str),
      (∀ l ∈ splitLines content, l.isEmpty = true) →
      parseMarkdown yamlOk content = Except.error ()) ∧
    writeCellsToMarkdown [] = [] := by
  constructor
  · intro yamlOk content hbl
    unfold parseMarkdown
    dsimp only
    have htw : (splitLines content).takeWhile (fun l => l.isEmpty) =
        splitLines content := takeWhile_all _ _ hbl
    have h2 : (parseWhitespaceLines true (splitLines content)).2 = [] := by
      unfold parseWhitespaceLines
      dsimp only
      rw [htw, List.drop_length]
    rw [h2]
  · rfl

/-- C10 witness. -/
theorem claim_C10_witness :
    parseMarkdown (fun _ => true) (str "\n\n") = Except.error () :=
  claim_C10_empty_document.1 (fun _ => true) (str "\n\n") (by decide)

end MarkdownNotebook
